import Mathlib

/-!
# tvector.go: the dynamically typed vector of the Thrift Go runtime

A shallow embedding of `src/tvector.go`.

* A Go `interface{}` value is a `Value`: the untyped `nil`, a slice of
  interface values (a slice header pointing into a backing array), or any
  other dynamic value, drawn from a parameter type `α`.
* Go slices alias their backing arrays, so the state of a vector is the
  `tVector` record together with the heap of backing arrays.
* A run-time panic (index out of range, failed type assertion, comparison of
  uncomparable values) is the result `none`.
* `TType` and its methods, `TypeFromValue`, the equality capabilities and the
  growth policy of `append` are not part of `tvector.go`; they are the fields
  of the parameter `Env`.
-/

namespace Thrift

/-- Thrift type tag; in Go a small unsigned integer type. -/
abbrev TType := Nat

/-- Header of a Go slice `[]interface{}`: backing array, offset of the first
element in it, length and capacity. -/
structure Slice where
  arr : Nat
  off : Nat
  len : Nat
  cap : Nat
deriving DecidableEq, Repr

/-- A Go `interface{}` value. -/
inductive Value (α : Type) where
  | nil : Value α
  | dyn (a : α) : Value α
  | slice (s : Slice) : Value α
deriving DecidableEq, Repr

/-- The test `v == nil` on an interface value. -/
def Value.isNil {α : Type} : Value α → Bool
  | Value.nil => true
  | _ => false

/-- The heap of backing arrays, addressed by position. -/
abbrev Heap (α : Type) := List (List (Value α))

/-- What `tvector.go` uses and does not define: the type constants, the methods
of `TType`, `TypeFromValue`, Go's `==` on dynamic values (`none`: the two
values are of one uncomparable type, a panic), the type assertions to the
equality interfaces (`data.(EqualsMap)` gives the `Equals` method, or fails)
and to the container interfaces (`v.(TMap)`), and the spare capacity `append`
allocates when it has to grow a slice. -/
structure Env (α : Type) where
  STOP : TType
  STRUCT : TType
  MAP : TType
  SET : TType
  LIST : TType
  IsEmptyType : TType → Bool
  IsBaseType : TType → Bool
  IsEnum : TType → Bool
  TypeFromValue : Value α → TType
  CoerceData : TType → Value α → Value α × Bool
  Compare : TType → Value α → Value α → Int × Bool
  eqDyn : α → α → Option Bool
  asEqualsOther : α → Option (Value α → Bool)
  asEqualsMap : α → Option (α → Bool)
  asEqualsSet : α → Option (α → Bool)
  asEqualsList : α → Option (α → Bool)
  asEqualsStruct : α → Option (α → Bool)
  isTMap : α → Bool
  isTSet : α → Bool
  isTList : α → Bool
  isTStruct : α → Bool
  growExtra : Nat → Nat

/-- The record `tVector` of the source. -/
structure tVector where
  elemType : TType
  l : Slice
deriving DecidableEq, Repr

/-- A vector in memory: the heap of backing arrays and the record `*p`. -/
structure State (α : Type) where
  heap : Heap α
  p : tVector
deriving DecidableEq, Repr

variable {α : Type}

/-! ## Go slice primitives -/

/-- The backing array at address `a`. -/
def arrayAt (h : Heap α) (a : Nat) : List (Value α) := h.getD a []

/-- Go `a == b` on two interface values: `none` is the panic on comparing two
slices, which are uncomparable. -/
def goEq (E : Env α) : Value α → Value α → Option Bool
  | Value.nil, Value.nil => some true
  | Value.dyn a, Value.dyn b => E.eqDyn a b
  | Value.slice _, Value.slice _ => none
  | _, _ => some false

/-- Go `s[i]`. -/
def sliceIndex (h : Heap α) (s : Slice) (i : Int) : Option (Value α) :=
  if 0 ≤ i ∧ i < (s.len : Int) then (arrayAt h s.arr)[s.off + i.toNat]? else none

/-- Go `s[i] = v`. -/
def sliceStore (h : Heap α) (s : Slice) (i : Int) (v : Value α) : Option (Heap α) :=
  if 0 ≤ i ∧ i < (s.len : Int) then
    some (h.set s.arr ((arrayAt h s.arr).set (s.off + i.toNat) v))
  else none

/-- Go `s[:i]`: the bound is the capacity. -/
def sliceTo (s : Slice) (i : Int) : Option Slice :=
  if 0 ≤ i ∧ i ≤ (s.cap : Int) then
    some { arr := s.arr, off := s.off, len := i.toNat, cap := s.cap }
  else none

/-- Go `s[i:]`: the bound is the length. -/
def sliceFrom (s : Slice) (i : Int) : Option Slice :=
  if 0 ≤ i ∧ i ≤ (s.len : Int) then
    some { arr := s.arr, off := s.off + i.toNat, len := s.len - i.toNat,
           cap := s.cap - i.toNat }
  else none

/-- Go `append(s, v)` with one value: in place when there is room, else into a
fresh array holding a copy of the elements of `s`. -/
def append (E : Env α) (h : Heap α) (s : Slice) (v : Value α) : Heap α × Slice :=
  if s.len < s.cap then
    (h.set s.arr ((arrayAt h s.arr).set (s.off + s.len) v),
     { arr := s.arr, off := s.off, len := s.len + 1, cap := s.cap })
  else
    (h ++ [((arrayAt h s.arr).drop s.off).take s.len ++
            v :: List.replicate (E.growExtra s.cap) Value.nil],
     { arr := h.length, off := 0, len := s.len + 1,
       cap := s.len + 1 + E.growExtra s.cap })

/-! ## The vector -/

/-- `NewTVector(t, s)`: `make([]interface{}, s)` panics for a negative `s`. -/
def NewTVector (h : Heap α) (t : TType) (s : Int) : Option (State α) :=
  if 0 ≤ s then
    some { heap := h ++ [List.replicate s.toNat Value.nil],
           p := { elemType := t,
                  l := { arr := h.length, off := 0, len := s.toNat, cap := s.toNat } } }
  else none

/-- `NewTVectorDefault()`: the nil slice, type `STOP`. -/
def NewTVectorDefault (E : Env α) (h : Heap α) : State α :=
  { heap := h, p := { elemType := E.STOP, l := { arr := 0, off := 0, len := 0, cap := 0 } } }

def tVector.ElemType (st : State α) : TType := st.p.elemType

def tVector.Len (st : State α) : Int := (st.p.l.len : Int)

def tVector.At (st : State α) (i : Int) : Option (Value α) :=
  sliceIndex st.heap st.p.l i

/-- The element type in force once `Set` or `Push` has applied its first
statement: `if p.elemType.IsEmptyType() { p.elemType = TypeFromValue(data) }`. -/
def fixType (E : Env α) (t : TType) (data : Value α) : TType :=
  if E.IsEmptyType t then E.TypeFromValue data else t

def tVector.Set (E : Env α) (st : State α) (i : Int) (data : Value α) : Option (State α) :=
  let t := fixType E st.p.elemType data
  let r := E.CoerceData t data
  if r.2 then
    (sliceStore st.heap st.p.l i r.1).map
      fun h => { heap := h, p := { elemType := t, l := st.p.l } }
  else some { heap := st.heap, p := { elemType := t, l := st.p.l } }

def tVector.Push (E : Env α) (st : State α) (data : Value α) : State α :=
  let t := fixType E st.p.elemType data
  let r := E.CoerceData t data
  if r.2 then
    let a := append E st.heap st.p.l r.1
    { heap := a.1, p := { elemType := t, l := a.2 } }
  else { heap := st.heap, p := { elemType := t, l := st.p.l } }

def tVector.Pop (st : State α) : Option (Value α × State α) :=
  match sliceIndex st.heap st.p.l ((st.p.l.len : Int) - 1),
        sliceTo st.p.l ((st.p.l.len : Int) - 1) with
  | some v, some s => some (v, { heap := st.heap, p := { elemType := st.p.elemType, l := s } })
  | _, _ => none

def tVector.Swap (st : State α) (i j : Int) : Option (State α) :=
  match sliceIndex st.heap st.p.l j, sliceIndex st.heap st.p.l i with
  | some vj, some vi =>
    match sliceStore st.heap st.p.l i vj with
    | some h1 =>
      (sliceStore h1 st.p.l j vi).map fun h2 => { heap := h2, p := st.p }
    | none => none
  | _, _ => none

def tVector.Insert (E : Env α) (st : State α) (i : Int) (data : Value α) :
    Option (State α) :=
  match sliceTo st.p.l i, sliceFrom st.p.l i with
  | some left, some right =>
    let a := append E st.heap left data
    let b := append E a.1 a.2 (Value.slice right)
    some { heap := b.1, p := { elemType := st.p.elemType, l := b.2 } }
  | _, _ => none

def tVector.Delete (E : Env α) (st : State α) (i : Int) : Option (State α) :=
  match sliceTo st.p.l i, sliceFrom st.p.l (i + 1) with
  | some left, some right =>
    let a := append E st.heap left (Value.slice right)
    some { heap := a.1, p := { elemType := st.p.elemType, l := a.2 } }
  | _, _ => none

/-- The loop `for i := 0; i < size; i++ { if test(p.At(i)) { return i } }; return -1`
entered at index `i` with `n` iterations left. -/
def searchLoop (st : State α) (test : Value α → Option Bool) : Nat → Nat → Option Int
  | 0, _ => some (-1)
  | n + 1, i =>
    match tVector.At st (i : Int) with
    | none => none
    | some v =>
      match test v with
      | none => none
      | some true => some (i : Int)
      | some false => searchLoop st test n (i + 1)

/-- Body of the loops of the `switch`: a nil element is skipped, the element is
asserted to be of the container interface (a panic if it is not) and handed
to the kind-specific `Equals`. -/
def kindTest (isKind : α → Bool) (eq : α → Bool) : Value α → Option Bool
  | Value.nil => some false
  | Value.dyn b => if isKind b then some (eq b) else none
  | Value.slice _ => none

/-- A type assertion of an interface value to an interface with methods: nil
and slices have none. -/
def assertCap {β : Type} (cap : α → Option β) : Value α → Option β
  | Value.dyn a => cap a
  | _ => none

def tVector.indexOf (E : Env α) (st : State α) (data : Value α) : Option Int :=
  if data.isNil then
    searchLoop st (fun v => some v.isNil) st.p.l.len 0
  else
    let r := E.CoerceData st.p.elemType data
    if r.1.isNil || !r.2 then some (-1)
    else
      let size := st.p.l.len
      if E.IsBaseType st.p.elemType || E.IsEnum st.p.elemType then
        searchLoop st (fun v => goEq E r.1 v) size 0
      else
        match assertCap E.asEqualsOther r.1 with
        | some eq => searchLoop st (fun v => some (eq v)) size 0
        | none =>
          if st.p.elemType = E.MAP then
            match assertCap E.asEqualsMap r.1 with
            | some eq => searchLoop st (kindTest E.isTMap eq) size 0
            | none => some (-1)
          else if st.p.elemType = E.SET then
            match assertCap E.asEqualsSet r.1 with
            | some eq => searchLoop st (kindTest E.isTSet eq) size 0
            | none => some (-1)
          else if st.p.elemType = E.LIST then
            match assertCap E.asEqualsList r.1 with
            | some eq => searchLoop st (kindTest E.isTList eq) size 0
            | none => some (-1)
          else if st.p.elemType = E.STRUCT then
            match assertCap E.asEqualsStruct r.1 with
            | some eq => searchLoop st (kindTest E.isTStruct eq) size 0
            | none => some (-1)
          else some (-1)

def tVector.Contains (E : Env α) (st : State α) (data : Value α) : Option Bool :=
  (tVector.indexOf E st data).map fun r => decide (0 ≤ r)

def tVector.Last (st : State α) : Option (Value α) :=
  if tVector.Len st ≤ 0 then some Value.nil
  else sliceIndex st.heap st.p.l (tVector.Len st - 1)

def tVector.Less (E : Env α) (st : State α) (i j : Int) : Option Bool :=
  match sliceIndex st.heap st.p.l i, sliceIndex st.heap st.p.l j with
  | some a, some b => some (decide ((E.Compare st.p.elemType a b).1 < 0))
  | _, _ => none

/-- What the producer does to its channel. -/
inductive ChanOp (α : Type) where
  | send (v : Value α) : ChanOp α
  | close : ChanOp α
deriving DecidableEq, Repr

/-- The loop `for _, elem := range s { c <- elem }` entered at index `i` with
`n` iterations left: the sends it performs, in order. The slice and the heap
are those at the start of the loop: nobody mutates the vector meanwhile. -/
def rangeSend (h : Heap α) (s : Slice) : Nat → Nat → Option (List (ChanOp α))
  | 0, _ => some []
  | n + 1, i =>
    match sliceIndex h s (i : Int) with
    | none => none
    | some v => (rangeSend h s n (i + 1)).map fun ops => ChanOp.send v :: ops

/-- `iterate(c)`: the channel operations of the producer in program order, the
sends of the loop and then `close(c)`. Scheduling and blocking are not
modelled: the consumer is taken to receive every value. -/
def tVector.iterate (st : State α) : Option (List (ChanOp α)) :=
  (rangeSend st.heap st.p.l st.p.l.len 0).map fun ops => ops ++ [ChanOp.close]

/-- `Iter()`: what the returned channel carries, the operations of the
producer started by `go p.iterate(c)` on the fresh channel `c`. -/
def tVector.Iter (st : State α) : Option (List (ChanOp α)) := tVector.iterate st

/-- The values a consumer receives from a channel before it is closed. -/
def delivered : List (ChanOp α) → List (Value α)
  | [] => []
  | ChanOp.send v :: ops => v :: delivered ops
  | ChanOp.close :: _ => []

/-- The `switch p.elemType` of `indexOf`: the kind-specific equality interface
and the container interface of the case taken, if any. -/
def kindOf (E : Env α) (t : TType) : Option ((α → Option (α → Bool)) × (α → Bool)) :=
  if t = E.MAP then some (E.asEqualsMap, E.isTMap)
  else if t = E.SET then some (E.asEqualsSet, E.isTSet)
  else if t = E.LIST then some (E.asEqualsList, E.isTList)
  else if t = E.STRUCT then some (E.asEqualsStruct, E.isTStruct)
  else none

/-! ## Observation and well-formedness -/

/-- The values a slice shows: `s[0]`, ..., `s[len(s)-1]`. -/
def sliceElems (h : Heap α) (s : Slice) : List (Value α) :=
  ((arrayAt h s.arr).drop s.off).take s.len

/-- The element sequence: what `At(0)`, ..., `At(Len()-1)` read. -/
def elems (st : State α) : List (Value α) := sliceElems st.heap st.p.l

/-- A slice lies inside its backing array. -/
def Slice.Valid (h : Heap α) (s : Slice) : Prop :=
  s.len ≤ s.cap ∧ s.off + s.cap ≤ (arrayAt h s.arr).length

/-- The vector's slice lies inside its backing array; true of every slice a Go
program can hold. -/
def WF (st : State α) : Prop := Slice.Valid st.heap st.p.l

instance (h : Heap α) (s : Slice) : Decidable (Slice.Valid h s) := by
  unfold Slice.Valid; infer_instance

instance (st : State α) : Decidable (WF st) := by
  unfold WF; infer_instance

/-- Pushing the values of a list in order. -/
def pushAll (E : Env α) (st : State α) : List (Value α) → State α
  | [] => st
  | x :: xs => pushAll E (tVector.Push E st x) xs

/-! ## A sample environment

The type descriptor is not part of `tvector.go`. To run the operations on
concrete vectors, here is one instance of it: a fragment of the Thrift type
system, with the usual type codes, over strings, 32-bit integers and opaque
records. -/

/-- Sample dynamic values: strings, integers and opaque records. -/
inductive Atom where
  | str (s : String) : Atom
  | i32 (n : Int) : Atom
  | obj (id : Nat) : Atom
deriving DecidableEq, Repr

def VOID : TType := 1
def I32 : TType := 8
def STRING : TType := 11

/-- Modelled from the spec: `TypeFromValue` (the spec's `ClassifyValue`) is
missing from the source. Sample classification: nil is `VOID`, a string is
`STRING`, an integer `I32`, a record `STRUCT` (12), a slice `LIST` (15). -/
def sampleTypeFromValue : Value Atom → TType
  | Value.nil => VOID
  | Value.dyn (Atom.str _) => STRING
  | Value.dyn (Atom.i32 _) => I32
  | Value.dyn (Atom.obj _) => 12
  | Value.slice _ => 15

/-- Modelled from the spec: `TType.CoerceData` (the spec's `Coerce`) is missing
from the source. Sample coercion: the empty types `STOP` (0) and `VOID` turn
every value into nil; `STRING` and `I32` accept their own values and turn nil
into their zero value; `STRUCT` (12) accepts records; all else is rejected. -/
def sampleCoerceData (t : TType) (v : Value Atom) : Value Atom × Bool :=
  if t = 0 ∨ t = VOID then (Value.nil, true)
  else if t = STRING then
    match v with
    | Value.nil => (Value.dyn (Atom.str ""), true)
    | Value.dyn (Atom.str s) => (Value.dyn (Atom.str s), true)
    | _ => (Value.dyn (Atom.str ""), false)
  else if t = I32 then
    match v with
    | Value.nil => (Value.dyn (Atom.i32 0), true)
    | Value.dyn (Atom.i32 n) => (Value.dyn (Atom.i32 n), true)
    | _ => (Value.dyn (Atom.i32 0), false)
  else if t = 12 then
    match v with
    | Value.dyn (Atom.obj k) => (Value.dyn (Atom.obj k), true)
    | _ => (Value.nil, false)
  else (Value.nil, false)

/-- Modelled from the spec: the type-descriptor service (`IsEmptyType`,
`IsBaseType`, `IsEnum`, classification, coercion, comparison) is missing from
the source. The sample instance has the Thrift type codes, `STOP` and `VOID`
as the empty types, the primitive codes as base types, `==` on sample values
by structure, no equality capability on any sample value, and an `append`
that doubles the capacity. -/
def sampleEnv : Env Atom where
  STOP := 0
  STRUCT := 12
  MAP := 13
  SET := 14
  LIST := 15
  IsEmptyType := fun t => t == 0 || t == VOID
  IsBaseType := fun t => t == 2 || t == 3 || t == 4 || t == 6 || t == I32 || t == 10 || t == STRING
  IsEnum := fun t => t == 16
  TypeFromValue := sampleTypeFromValue
  CoerceData := sampleCoerceData
  Compare := fun _ _ _ => (0, false)
  eqDyn := fun a b => some (decide (a = b))
  asEqualsOther := fun _ => none
  asEqualsMap := fun _ => none
  asEqualsSet := fun _ => none
  asEqualsList := fun _ => none
  asEqualsStruct := fun _ => none
  isTMap := fun _ => false
  isTSet := fun _ => false
  isTList := fun _ => false
  isTStruct := fun _ => false
  growExtra := fun c => c - 1

/-- The string `s` as an interface value. -/
def sv (s : String) : Value Atom := Value.dyn (Atom.str s)

/-- The vector obtained from `NewTVectorDefault()` by pushing the given values. -/
def sampleVec (xs : List (Value Atom)) : State Atom :=
  pushAll sampleEnv (NewTVectorDefault sampleEnv []) xs

/-- `Contains(x)` is true right after `Push(x)`, and right after `Set(i, x)` at
every valid index `i`. -/
def ContainsAfterStore (E : Env α) (st : State α) (x : Value α) : Prop :=
  tVector.Contains E (tVector.Push E st x) x = some true ∧
  ∀ i : Int, 0 ≤ i → i < tVector.Len st →
    ∃ st', tVector.Set E st i x = some st' ∧ tVector.Contains E st' x = some true

/-! ## Reachable states -/

/-- The states reached from `NewTVectorDefault()` or `NewTVector(t, s)` by
`Push`, `Set`, `Pop` and `Swap` calls that return. -/
inductive Reach (E : Env α) : State α → Prop where
  | fresh (h : Heap α) : Reach E (NewTVectorDefault E h)
  | sized (h : Heap α) (t : TType) (s : Int) (st : State α) :
      NewTVector h t s = some st → Reach E st
  | push (st : State α) (x : Value α) :
      Reach E st → Reach E (tVector.Push E st x)
  | store (st st' : State α) (i : Int) (x : Value α) :
      Reach E st → tVector.Set E st i x = some st' → Reach E st'
  | pop (st st' : State α) (v : Value α) :
      Reach E st → tVector.Pop st = some (v, st') → Reach E st'
  | swap (st st' : State α) (i j : Int) :
      Reach E st → tVector.Swap st i j = some st' → Reach E st'

/-- Where a value `v` found in a vector of type `t` comes from: it is nil, or a
successful coercion to `t` produced it, or a successful coercion to an empty
type produced it. -/
def Coerced (E : Env α) (t : TType) (v : Value α) : Prop :=
  v = Value.nil ∨ (∃ y, E.CoerceData t y = (v, true)) ∨
    ∃ t0 y, E.IsEmptyType t0 = true ∧ E.CoerceData t0 y = (v, true)

/-- Every element is nil, or produced by a successful coercion to the element
type, or produced by a successful coercion to an empty type. -/
def Conforming (E : Env α) (st : State α) : Prop :=
  ∀ v ∈ elems st, Coerced E st.p.elemType v

/-- A coercion to an empty type produces no value other than nil. -/
def EmptyCoercesNil (E : Env α) : Prop :=
  ∀ (t : TType) (y c : Value α), E.IsEmptyType t = true → E.CoerceData t y = (c, true) →
    c = Value.nil

/-! ## A sample environment with containers

A second instance of the type descriptor, to run the search dispatch: map
containers that carry the map-specific `Equals` only, values that carry the
generic `Equals`, and strings. -/

/-- Sample dynamic values: map containers, strings, and values with the
generic equality. -/
inductive Item where
  | tmap (id : Nat) : Item
  | text (s : String) : Item
  | gen (id : Nat) : Item
deriving DecidableEq, Repr

/-- Modelled from the spec: `TType.CoerceData` (the spec's `Coerce`) is missing
from the source. Sample coercion: `MAP` (13) accepts map containers, `STRING`
(11) strings, `STRUCT` (12) the values with the generic equality; all else is
rejected. -/
def kindCoerceData (t : TType) (v : Value Item) : Value Item × Bool :=
  match t, v with
  | 13, Value.dyn (Item.tmap k) => (Value.dyn (Item.tmap k), true)
  | 11, Value.dyn (Item.text s) => (Value.dyn (Item.text s), true)
  | 12, Value.dyn (Item.gen k) => (Value.dyn (Item.gen k), true)
  | _, _ => (Value.nil, false)

/-- Modelled from the spec: the type-descriptor service and the equality
capabilities are missing from the source. The sample instance has the Thrift
type codes; a map container has the map-specific `Equals` (same identity)
and is a `TMap`; a `gen` value has the generic `Equals` (same value). -/
def kindEnv : Env Item where
  STOP := 0
  STRUCT := 12
  MAP := 13
  SET := 14
  LIST := 15
  IsEmptyType := fun t => t == 0 || t == 1
  IsBaseType := fun t => t == 2 || t == 3 || t == 4 || t == 6 || t == 8 || t == 10 || t == 11
  IsEnum := fun t => t == 16
  TypeFromValue := fun v =>
    match v with
    | Value.nil => 1
    | Value.dyn (Item.tmap _) => 13
    | Value.dyn (Item.text _) => 11
    | Value.dyn (Item.gen _) => 12
    | Value.slice _ => 15
  CoerceData := kindCoerceData
  Compare := fun _ _ _ => (0, false)
  eqDyn := fun a b => some (decide (a = b))
  asEqualsOther := fun a =>
    match a with
    | Item.gen k => some (fun v => decide (v = Value.dyn (Item.gen k)))
    | _ => none
  asEqualsMap := fun a =>
    match a with
    | Item.tmap k => some (fun b => decide (b = Item.tmap k))
    | _ => none
  asEqualsSet := fun _ => none
  asEqualsList := fun _ => none
  asEqualsStruct := fun _ => none
  isTMap := fun a =>
    match a with
    | Item.tmap _ => true
    | _ => false
  isTSet := fun _ => false
  isTList := fun _ => false
  isTStruct := fun _ => false
  growExtra := fun c => c - 1

/-- The map container `k` as an interface value. -/
def mv (k : Nat) : Value Item := Value.dyn (Item.tmap k)

/-- The vector `["a","b"]` of type `STRING`, as `NewTVector(STRING, 2)`,
`Set(0, "a")`, `Set(1, "b")` leave it. -/
def sizedVec : State Atom :=
  { heap := [[sv "a", sv "b"]],
    p := { elemType := STRING, l := { arr := 0, off := 0, len := 2, cap := 2 } } }

/-- The vector `[map 1, nil, map 2]` of kind `MAP`, as `NewTVector(MAP, 3)`,
`Set(0, map 1)`, `Set(2, map 2)` leave it. -/
def kindVec : State Item :=
  { heap := [[mv 1, Value.nil, mv 2]],
    p := { elemType := 13, l := { arr := 0, off := 0, len := 3, cap := 3 } } }

/-! ## The heap and the slice primitives -/

theorem arrayAt_set_self (h : Heap α) (a : Nat) (x : List (Value α)) (ha : a < h.length) :
    arrayAt (h.set a x) a = x := by
  simp [arrayAt, ha]

theorem arrayAt_set_ne (h : Heap α) (a b : Nat) (x : List (Value α)) (hab : a ≠ b) :
    arrayAt (h.set a x) b = arrayAt h b := by
  simp [arrayAt, List.getElem?_set_ne hab]

theorem arrayAt_append_new (h : Heap α) (x : List (Value α)) :
    arrayAt (h ++ [x]) h.length = x := by
  simp [arrayAt]

theorem arrayAt_append_old (h : Heap α) (x : List (Value α)) (a : Nat) (ha : a < h.length) :
    arrayAt (h ++ [x]) a = arrayAt h a := by
  simp [arrayAt, List.getElem?_append_left ha]

theorem arrayAt_of_le (h : Heap α) (a : Nat) (ha : h.length ≤ a) : arrayAt h a = [] := by
  simp [arrayAt, List.getElem?_eq_none ha]

theorem Slice.Valid.arr_lt {h : Heap α} {s : Slice} (hv : Slice.Valid h s) (hc : 0 < s.cap) :
    s.arr < h.length := by
  by_contra hge
  have h0 := arrayAt_of_le h s.arr (Nat.le_of_not_lt hge)
  have h1 := hv.2
  rw [h0] at h1
  simp at h1
  omega

theorem sliceElems_length {h : Heap α} {s : Slice} (hv : Slice.Valid h s) :
    (sliceElems h s).length = s.len := by
  have h1 := hv.1
  have h2 := hv.2
  simp [sliceElems]
  omega

theorem sliceElems_getElem? (h : Heap α) (s : Slice) (k : Nat) (hk : k < s.len) :
    (sliceElems h s)[k]? = (arrayAt h s.arr)[s.off + k]? := by
  simp [sliceElems, List.getElem?_take, hk, List.getElem?_drop]

theorem sliceIndex_eq (h : Heap α) (s : Slice) (i : Int) (h0 : 0 ≤ i) (h1 : i < (s.len : Int)) :
    sliceIndex h s i = (sliceElems h s)[i.toNat]? := by
  have hk : i.toNat < s.len := by omega
  simp [sliceIndex, h0, h1, sliceElems_getElem? h s _ hk]

theorem sliceIndex_nat (h : Heap α) (s : Slice) (k : Nat) (hk : k < s.len) :
    sliceIndex h s (k : Int) = (sliceElems h s)[k]? := by
  have := sliceIndex_eq h s (k : Int) (by omega) (by omega)
  simpa using this

theorem sliceIndex_none (h : Heap α) (s : Slice) (i : Int) (hi : ¬ (0 ≤ i ∧ i < (s.len : Int))) :
    sliceIndex h s i = none := by
  simp [sliceIndex, hi]

/-- Writing one cell of an array, seen through a window that ends just before
the cell and through the window extended by the cell. -/
theorem take_drop_set_end (a : List (Value α)) (off len : Nat) (v : Value α)
    (hlen : off + len < a.length) :
    ((a.set (off + len) v).drop off).take (len + 1) = (a.drop off).take len ++ [v] := by
  apply List.ext_getElem?
  intro n
  rcases Nat.lt_trichotomy n len with hn | hn | hn
  · have h1 : n < len + 1 := by omega
    have h2 : off + len ≠ off + n := by omega
    have h3 : n < ((a.drop off).take len).length := by simp; omega
    simp [List.getElem?_take, h1, hn, List.getElem?_drop, List.getElem?_set_ne h2,
      List.getElem?_append_left h3]
  · subst hn
    have h3 : ((a.drop off).take n).length = n := by simp; omega
    have h4 : ((a.drop off).take n).length ≤ n := by omega
    rw [List.getElem?_append_right h4, h3]
    simp [List.getElem?_take, List.getElem?_drop, hlen]
  · have h1 : ¬ n < len + 1 := by omega
    have h3 : ((a.drop off).take len).length = len := by simp; omega
    have h4 : ((a.drop off).take len).length ≤ n := by omega
    rw [List.getElem?_append_right h4, h3]
    have h5 : n - len ≠ 0 := by omega
    have h6 : [v].length ≤ n - len := by simp; omega
    simp [List.getElem?_take, h1, List.getElem?_eq_none h6]

/-- Writing a cell inside the window of a slice. -/
theorem take_drop_set_mid (a : List (Value α)) (off len k : Nat) (v : Value α)
    (hk : k < len) :
    ((a.set (off + k) v).drop off).take len = ((a.drop off).take len).set k v := by
  apply List.ext_getElem?
  intro n
  by_cases hn : n < len
  · by_cases hnk : k = n
    · subst hnk
      by_cases hl : off + k < a.length
      · have h3 : k < ((a.drop off).take len).length := by simp; omega
        rw [List.getElem?_set_self h3]
        simp [List.getElem?_take, hn, List.getElem?_drop, hl]
      · have h3 : ((a.drop off).take len).length ≤ k := by simp; omega
        have h4 : a.length ≤ off + k := by omega
        have h5 : (((a.drop off).take len).set k v).length ≤ k := by simpa using h3
        rw [List.getElem?_eq_none h5, List.set_eq_of_length_le h4]
        simp [List.getElem?_take, hn, List.getElem?_drop, List.getElem?_eq_none h4]
    · have h2 : off + k ≠ off + n := by omega
      simp [List.getElem?_take, hn, List.getElem?_drop, List.getElem?_set_ne h2,
        List.getElem?_set_ne hnk]
  · have h3 : ((a.drop off).take len).length ≤ n := by simp; omega
    have h4 : (((a.drop off).take len).set k v).length ≤ n := by simpa using h3
    simp [List.getElem?_take, hn, List.getElem?_eq_none h4]

theorem append_valid (E : Env α) {h : Heap α} {s : Slice} (v : Value α)
    (hv : Slice.Valid h s) :
    Slice.Valid (append E h s v).1 (append E h s v).2 := by
  have h1 := hv.1
  have h2 := hv.2
  unfold append
  split
  · rename_i hlt
    have ha : s.arr < h.length := hv.arr_lt (by omega)
    refine ⟨by simp; omega, ?_⟩
    simp only [arrayAt_set_self h _ _ ha, List.length_set]
    exact h2
  · rename_i hge
    refine ⟨by simp, ?_⟩
    simp only [arrayAt_append_new]
    simp
    omega

theorem append_elems (E : Env α) {h : Heap α} {s : Slice} (v : Value α)
    (hv : Slice.Valid h s) :
    sliceElems (append E h s v).1 (append E h s v).2 = sliceElems h s ++ [v] := by
  have h1 := hv.1
  have h2 := hv.2
  unfold append
  split
  · rename_i hlt
    have ha : s.arr < h.length := hv.arr_lt (by omega)
    simp only [sliceElems, arrayAt_set_self h _ _ ha]
    exact take_drop_set_end _ _ _ _ (by omega)
  · rename_i hge
    simp only [sliceElems, arrayAt_append_new, List.drop_zero]
    have h3 : ((arrayAt h s.arr).drop s.off).take s.len =
        sliceElems h s := rfl
    rw [h3]
    have h4 := sliceElems_length hv
    have h5 : sliceElems h s ++ v :: List.replicate (E.growExtra s.cap) Value.nil =
        (sliceElems h s ++ [v]) ++ List.replicate (E.growExtra s.cap) Value.nil := by simp
    rw [h5]
    apply List.take_left'
    simp [h4]

theorem sliceStore_eq (h : Heap α) (s : Slice) (i : Int) (v : Value α)
    (h0 : 0 ≤ i) (h1 : i < (s.len : Int)) :
    sliceStore h s i v = some (h.set s.arr ((arrayAt h s.arr).set (s.off + i.toNat) v)) := by
  simp [sliceStore, h0, h1]

theorem store_valid {h : Heap α} {s : Slice} (k : Nat) (v : Value α)
    (hv : Slice.Valid h s) :
    Slice.Valid (h.set s.arr ((arrayAt h s.arr).set (s.off + k) v)) s := by
  by_cases ha : s.arr < h.length
  · refine ⟨hv.1, ?_⟩
    rw [arrayAt_set_self h _ _ ha, List.length_set]
    exact hv.2
  · have hge : h.length ≤ s.arr := Nat.le_of_not_lt ha
    rw [List.set_eq_of_length_le hge]
    exact hv

theorem store_elems {h : Heap α} {s : Slice} (k : Nat) (v : Value α)
    (hv : Slice.Valid h s) (hk : k < s.len) :
    sliceElems (h.set s.arr ((arrayAt h s.arr).set (s.off + k) v)) s =
      (sliceElems h s).set k v := by
  have ha : s.arr < h.length := hv.arr_lt (by have := hv.1; omega)
  simp only [sliceElems, arrayAt_set_self h _ _ ha]
  exact take_drop_set_mid _ _ _ _ _ hk

/-! ## The operations, seen on the element sequence -/

theorem Len_eq_length {st : State α} (hwf : WF st) :
    tVector.Len st = ((elems st).length : Int) := by
  simp [tVector.Len, elems, sliceElems_length hwf]

theorem At_eq_getElem? (st : State α) (k : Nat) (hk : k < st.p.l.len) :
    tVector.At st (k : Int) = (elems st)[k]? :=
  sliceIndex_nat st.heap st.p.l k hk

theorem At_eq_some {st : State α} (hwf : WF st) (k : Nat) (hk : k < st.p.l.len) :
    ∃ v, tVector.At st (k : Int) = some v ∧ (elems st)[k]? = some v := by
  have hlen : k < (elems st).length := by
    simp only [elems, sliceElems_length hwf]; exact hk
  exact ⟨(elems st)[k], by rw [At_eq_getElem? st k hk, List.getElem?_eq_getElem hlen],
    List.getElem?_eq_getElem hlen⟩

theorem At_none (st : State α) (i : Int) (hi : ¬ (0 ≤ i ∧ i < tVector.Len st)) :
    tVector.At st i = none :=
  sliceIndex_none st.heap st.p.l i hi

/-- Two vectors of the same length with the same element sequence answer `At`
alike at every index. -/
theorem At_congr {st st' : State α} (hlen : st'.p.l.len = st.p.l.len)
    (hel : elems st' = elems st) (i : Int) : tVector.At st' i = tVector.At st i := by
  by_cases hi : 0 ≤ i ∧ i < (st.p.l.len : Int)
  · have hk : i.toNat < st.p.l.len := by omega
    have e1 := At_eq_getElem? st i.toNat hk
    have e2 := At_eq_getElem? st' i.toNat (by omega)
    have e3 : ((i.toNat : Nat) : Int) = i := by omega
    rw [e3] at e1 e2
    rw [e1, e2, hel]
  · rw [At_none st i hi, At_none st' i (by simpa [tVector.Len, hlen] using hi)]

theorem Push_ok (E : Env α) {st : State α} (x c : Value α) (hwf : WF st)
    (hc : E.CoerceData (fixType E st.p.elemType x) x = (c, true)) :
    WF (tVector.Push E st x) ∧
    elems (tVector.Push E st x) = elems st ++ [c] ∧
    (tVector.Push E st x).p.l.len = st.p.l.len + 1 ∧
    (tVector.Push E st x).p.elemType = fixType E st.p.elemType x := by
  have e : tVector.Push E st x =
      { heap := (append E st.heap st.p.l c).1,
        p := { elemType := fixType E st.p.elemType x, l := (append E st.heap st.p.l c).2 } } := by
    simp [tVector.Push, hc]
  rw [e]
  refine ⟨append_valid E c hwf, append_elems E c hwf, ?_, rfl⟩
  show (append E st.heap st.p.l c).2.len = st.p.l.len + 1
  unfold append
  split <;> rfl

theorem Push_reject (E : Env α) (st : State α) (x : Value α)
    (hc : (E.CoerceData (fixType E st.p.elemType x) x).2 = false) :
    tVector.Push E st x =
      { heap := st.heap, p := { elemType := fixType E st.p.elemType x, l := st.p.l } } := by
  simp [tVector.Push, hc]

theorem Set_ok (E : Env α) {st : State α} (i : Int) (x c : Value α) (hwf : WF st)
    (h0 : 0 ≤ i) (h1 : i < tVector.Len st)
    (hc : E.CoerceData (fixType E st.p.elemType x) x = (c, true)) :
    ∃ st', tVector.Set E st i x = some st' ∧ WF st' ∧
      elems st' = (elems st).set i.toNat c ∧ st'.p.l = st.p.l ∧
      st'.p.elemType = fixType E st.p.elemType x := by
  have hk : i.toNat < st.p.l.len := by simp [tVector.Len] at h1; omega
  refine ⟨{ heap := st.heap.set st.p.l.arr
              ((arrayAt st.heap st.p.l.arr).set (st.p.l.off + i.toNat) c),
            p := { elemType := fixType E st.p.elemType x, l := st.p.l } }, ?_, ?_, ?_, rfl, rfl⟩
  · simp [tVector.Set, hc, sliceStore_eq st.heap st.p.l i c h0 h1]
  · exact store_valid i.toNat c hwf
  · exact store_elems i.toNat c hwf hk

theorem Set_reject (E : Env α) (st : State α) (i : Int) (x : Value α)
    (hc : (E.CoerceData (fixType E st.p.elemType x) x).2 = false) :
    tVector.Set E st i x =
      some { heap := st.heap, p := { elemType := fixType E st.p.elemType x, l := st.p.l } } := by
  simp [tVector.Set, hc]

theorem sliceElems_shrink (h : Heap α) (s : Slice) (n : Nat) (hn : n ≤ s.len) :
    sliceElems h { arr := s.arr, off := s.off, len := n, cap := s.cap } =
      (sliceElems h s).take n := by
  simp [sliceElems, List.take_take, Nat.min_eq_left hn]

theorem Pop_ok {st : State α} (hwf : WF st) (hpos : 0 < st.p.l.len) :
    ∃ v st', tVector.Pop st = some (v, st') ∧ WF st' ∧
      (elems st)[st.p.l.len - 1]? = some v ∧
      elems st' = (elems st).take (st.p.l.len - 1) ∧
      st'.p.l.len = st.p.l.len - 1 ∧ st'.heap = st.heap ∧
      st'.p.elemType = st.p.elemType := by
  obtain ⟨v, hv, hv2⟩ := At_eq_some hwf (st.p.l.len - 1) (by omega)
  have e1 : ((st.p.l.len - 1 : Nat) : Int) = (st.p.l.len : Int) - 1 := by omega
  rw [e1] at hv
  have hcap := hwf.1
  have e2 : sliceTo st.p.l ((st.p.l.len : Int) - 1) =
      some { arr := st.p.l.arr, off := st.p.l.off, len := st.p.l.len - 1, cap := st.p.l.cap } := by
    have e3 : ((st.p.l.len : Int) - 1).toNat = st.p.l.len - 1 := by omega
    have e4 : 0 ≤ (st.p.l.len : Int) - 1 ∧ (st.p.l.len : Int) - 1 ≤ (st.p.l.cap : Int) := by omega
    simp only [sliceTo, e4, e3, and_self, if_true]
  refine ⟨v, ⟨st.heap, ⟨st.p.elemType, ⟨st.p.l.arr, st.p.l.off, st.p.l.len - 1, st.p.l.cap⟩⟩⟩,
    ?_, ?_, hv2, ?_, rfl, rfl, rfl⟩
  · unfold tVector.At at hv
    simp only [tVector.Pop, hv, e2]
  · exact ⟨by show st.p.l.len - 1 ≤ st.p.l.cap; omega, hwf.2⟩
  · exact sliceElems_shrink st.heap st.p.l (st.p.l.len - 1) (by omega)

theorem NewTVectorDefault_WF (E : Env α) (h : Heap α) : WF (NewTVectorDefault E h) := by
  simp [WF, Slice.Valid, NewTVectorDefault]

theorem NewTVectorDefault_elems (E : Env α) (h : Heap α) :
    elems (NewTVectorDefault E h) = [] := by
  simp [elems, sliceElems, NewTVectorDefault]

theorem NewTVector_WF (h : Heap α) (t : TType) (n : Int) (hn : 0 ≤ n) :
    ∃ st, NewTVector h t n = some st ∧ WF st ∧
      elems st = List.replicate n.toNat Value.nil ∧ st.p.elemType = t := by
  have e : NewTVector h t n =
      some ⟨h ++ [List.replicate n.toNat Value.nil],
            ⟨t, ⟨h.length, 0, n.toNat, n.toNat⟩⟩⟩ := by
    simp only [NewTVector, hn, if_true]
  refine ⟨_, e, ?_, ?_, rfl⟩
  · simp [WF, Slice.Valid, arrayAt_append_new]
  · simp [elems, sliceElems, arrayAt_append_new]

theorem fixType_of_fixed (E : Env α) (T : TType) (x : Value α)
    (hT : E.IsEmptyType T = false) : fixType E T x = T := by
  simp [fixType, hT]

/-- Pushing coercible values into a vector whose type is fixed appends their
coerced values, in order. -/
theorem pushAll_fixed (E : Env α) (T : TType) (hT : E.IsEmptyType T = false)
    (ys : List (Value α)) :
    ∀ st : State α, WF st → st.p.elemType = T →
      (∀ y ∈ ys, (E.CoerceData T y).2 = true) →
      WF (pushAll E st ys) ∧
      elems (pushAll E st ys) = elems st ++ ys.map (fun y => (E.CoerceData T y).1) ∧
      (pushAll E st ys).p.elemType = T := by
  induction ys with
  | nil => intro st hwf ht _; simp [pushAll, hwf, ht]
  | cons y ys ih =>
    intro st hwf ht hco
    have hy : (E.CoerceData T y).2 = true := hco y (List.mem_cons_self y ys)
    have hfix : fixType E st.p.elemType y = T := by rw [ht]; exact fixType_of_fixed E T y hT
    have hc : E.CoerceData (fixType E st.p.elemType y) y = ((E.CoerceData T y).1, true) := by
      rw [hfix, ← hy]
    obtain ⟨w1, w2, _, w4⟩ := Push_ok E y _ hwf hc
    have step := ih (tVector.Push E st y) w1 (by rw [w4, hfix])
      (fun z hz => hco z (List.mem_cons_of_mem y hz))
    refine ⟨step.1, ?_, step.2.2⟩
    show elems (pushAll E (tVector.Push E st y) ys) = _
    rw [step.2.1, w2]
    simp

theorem Last_eq_getLast? {st : State α} (hwf : WF st) :
    tVector.Last st = some ((elems st).getLast?.getD Value.nil) := by
  unfold tVector.Last
  by_cases hz : st.p.l.len = 0
  · have h0 : (elems st).length = 0 := by simp only [elems, sliceElems_length hwf]; exact hz
    have h1 : elems st = [] := List.length_eq_zero.mp h0
    simp [tVector.Len, hz, h1]
  · have hpos : ¬ ((st.p.l.len : Int) ≤ 0) := by omega
    obtain ⟨v, hv, hv2⟩ := At_eq_some hwf (st.p.l.len - 1) (by omega)
    have e1 : ((st.p.l.len - 1 : Nat) : Int) = (st.p.l.len : Int) - 1 := by omega
    rw [e1] at hv
    unfold tVector.At at hv
    have hl : (elems st).length = st.p.l.len := by simp only [elems, sliceElems_length hwf]
    have h2 : (elems st).getLast? = some v := by
      rw [List.getLast?_eq_getElem?, hl]; exact hv2
    simp only [tVector.Len, hpos, if_false, hv, h2, Option.getD_some]

/-! ## Push, Set and Pop -/

/-- C1, as the code has it: on a vector from `NewTVectorDefault` (type `STOP`,
an empty type), pushing `x, xs...`, all coercible to the classified type of
`x`, where that classified type is not itself an empty type, gives a vector
whose element type is the classified type of `x`, whose `Len()` is the number
of values pushed, whose `At(k)` is the coerced `k`-th value and whose `Last()`
is the coerced last value. -/
theorem C1_push_sequence (E : Env α) (h : Heap α) (x : Value α) (xs : List (Value α))
    (hstop : E.IsEmptyType E.STOP = true)
    (hT : E.IsEmptyType (E.TypeFromValue x) = false)
    (hco : ∀ y ∈ x :: xs, (E.CoerceData (E.TypeFromValue x) y).2 = true) :
    tVector.ElemType (pushAll E (NewTVectorDefault E h) (x :: xs)) = E.TypeFromValue x ∧
    tVector.Len (pushAll E (NewTVectorDefault E h) (x :: xs)) = ((xs.length + 1 : Nat) : Int) ∧
    (∀ (k : Nat) (hk : k < (x :: xs).length),
      tVector.At (pushAll E (NewTVectorDefault E h) (x :: xs)) (k : Int) =
        some (E.CoerceData (E.TypeFromValue x) ((x :: xs).get ⟨k, hk⟩)).1) ∧
    tVector.Last (pushAll E (NewTVectorDefault E h) (x :: xs)) =
      some (E.CoerceData (E.TypeFromValue x)
        ((x :: xs).getLast (List.cons_ne_nil x xs))).1 := by
  have hwf0 := NewTVectorDefault_WF E h
  have hx : (E.CoerceData (E.TypeFromValue x) x).2 = true := hco x (List.mem_cons_self x xs)
  have hfix : fixType E (NewTVectorDefault E h).p.elemType x = E.TypeFromValue x := by
    simp [fixType, NewTVectorDefault, hstop]
  have hc : E.CoerceData (fixType E (NewTVectorDefault E h).p.elemType x) x =
      ((E.CoerceData (E.TypeFromValue x) x).1, true) := by
    rw [hfix, ← hx]
  obtain ⟨w1, w2, _, w4⟩ := Push_ok E x _ hwf0 hc
  obtain ⟨r1, r2, r3⟩ := pushAll_fixed E (E.TypeFromValue x) hT xs
    (tVector.Push E (NewTVectorDefault E h) x) w1 (by rw [w4, hfix])
    (fun z hz => hco z (List.mem_cons_of_mem x hz))
  have hel : elems (pushAll E (NewTVectorDefault E h) (x :: xs)) =
      (x :: xs).map (fun y => (E.CoerceData (E.TypeFromValue x) y).1) := by
    show elems (pushAll E (tVector.Push E (NewTVectorDefault E h) x) xs) = _
    rw [r2, w2, NewTVectorDefault_elems]
    simp
  have hwf : WF (pushAll E (NewTVectorDefault E h) (x :: xs)) := r1
  have hlen : (pushAll E (NewTVectorDefault E h) (x :: xs)).p.l.len = xs.length + 1 := by
    have := sliceElems_length hwf
    rw [← this]
    show (elems _).length = _
    rw [hel]
    simp
  refine ⟨r3, ?_, ?_, ?_⟩
  · simp [tVector.Len, hlen]
  · intro k hk
    have hk2 : k < (pushAll E (NewTVectorDefault E h) (x :: xs)).p.l.len := by
      rw [hlen]; simpa using hk
    rw [At_eq_getElem? _ k hk2, hel, List.getElem?_map, List.getElem?_eq_getElem hk]
    rfl
  · rw [Last_eq_getLast? hwf, hel, List.getLast?_map,
      List.getLast?_eq_getLast _ (List.cons_ne_nil x xs)]
    rfl

/-- Witness of C1: `Push("a")`, `Push("b")`, `Push("c")` on a fresh vector. -/
theorem C1_push_sequence_witness :
    tVector.ElemType (sampleVec [sv "a", sv "b", sv "c"]) = STRING ∧
    tVector.Len (sampleVec [sv "a", sv "b", sv "c"]) = 3 ∧
    tVector.At (sampleVec [sv "a", sv "b", sv "c"]) 0 = some (sv "a") ∧
    tVector.Last (sampleVec [sv "a", sv "b", sv "c"]) = some (sv "c") := by
  have w := C1_push_sequence sampleEnv [] (sv "a") [sv "b", sv "c"]
    (by decide) (by decide) (by decide)
  exact ⟨w.1, w.2.1, w.2.2.1 0 (by decide), w.2.2.2⟩

/-- C1 as stated fails: the classified type of `nil` is `VOID`, an empty type,
to which both `nil` and `"b"` are coercible; after `Push(nil)`, `Push("b")` the
element type is the classified type of `"b"`, not that of `nil`, and `At(1)`
is `"b"`, not the coercion of `"b"` to `VOID`. -/
theorem C1_counterexample :
    sampleEnv.IsEmptyType sampleEnv.STOP = true ∧
    (sampleEnv.CoerceData (sampleEnv.TypeFromValue Value.nil) Value.nil).2 = true ∧
    (sampleEnv.CoerceData (sampleEnv.TypeFromValue Value.nil) (sv "b")).2 = true ∧
    tVector.ElemType (pushAll sampleEnv (NewTVectorDefault sampleEnv []) [Value.nil, sv "b"])
      ≠ sampleEnv.TypeFromValue Value.nil ∧
    tVector.At (pushAll sampleEnv (NewTVectorDefault sampleEnv []) [Value.nil, sv "b"]) 1
      ≠ some (sampleEnv.CoerceData (sampleEnv.TypeFromValue Value.nil) (sv "b")).1 := by
  decide

/-- C2: for a vector `st`, a valid index `i` and a value `x` whose coercion to
the element type (the type in force once `Set` has fixed an unset type) gives
`c`, the call `Set(i, x)` returns, and afterwards `At(i)` is `c`, `Len()` is
unchanged and `At(k)` is unchanged for every `k ≠ i`. -/
theorem C2_set_then_at (E : Env α) (st : State α) (i : Int) (x c : Value α)
    (hwf : WF st) (h0 : 0 ≤ i) (h1 : i < tVector.Len st)
    (hc : E.CoerceData (fixType E (tVector.ElemType st) x) x = (c, true)) :
    ∃ st', tVector.Set E st i x = some st' ∧
      tVector.At st' i = some c ∧
      tVector.Len st' = tVector.Len st ∧
      ∀ k : Int, k ≠ i → tVector.At st' k = tVector.At st k := by
  obtain ⟨st', hs, _, hel, hl, _⟩ := Set_ok E i x c hwf h0 h1 hc
  have hlen : (i.toNat : Nat) < st.p.l.len := by simp [tVector.Len] at h1; omega
  have hlen' : st'.p.l.len = st.p.l.len := by rw [hl]
  have hi : ((i.toNat : Nat) : Int) = i := by omega
  have hlist : i.toNat < (elems st).length := by
    simp only [elems, sliceElems_length hwf]; exact hlen
  refine ⟨st', hs, ?_, by simp [tVector.Len, hlen'], ?_⟩
  · have e := At_eq_getElem? st' i.toNat (by omega)
    rw [hi] at e
    rw [e, hel, List.getElem?_set_self hlist]
  · intro k hk
    by_cases hv : 0 ≤ k ∧ k < (st.p.l.len : Int)
    · have e1 := At_eq_getElem? st k.toNat (by omega)
      have e2 := At_eq_getElem? st' k.toNat (by omega)
      have hkk : ((k.toNat : Nat) : Int) = k := by omega
      rw [hkk] at e1 e2
      have hne : i.toNat ≠ k.toNat := by omega
      rw [e1, e2, hel, List.getElem?_set_ne hne]
    · rw [At_none st k hv, At_none st' k (by simpa [tVector.Len, hlen'] using hv)]

/-- Witness of C2: `Set(1, "x")` on `["a","b","c"]`. -/
theorem C2_set_then_at_witness :
    ∃ st', tVector.Set sampleEnv (sampleVec [sv "a", sv "b", sv "c"]) 1 (sv "x") = some st' ∧
      tVector.At st' 1 = some (sv "x") ∧
      tVector.Len st' = tVector.Len (sampleVec [sv "a", sv "b", sv "c"]) ∧
      ∀ k : Int, k ≠ 1 →
        tVector.At st' k = tVector.At (sampleVec [sv "a", sv "b", sv "c"]) k :=
  C2_set_then_at sampleEnv (sampleVec [sv "a", sv "b", sv "c"]) 1 (sv "x") (sv "x")
    (by decide) (by decide) (by decide) (by decide)

/-- C3: when the coercion of `x` to the element type (the type in force once
the call has fixed an unset type) fails, `Push(x)` and `Set(i, x)` leave the
element sequence as it was: same `Len()`, same `At(k)` at every index, and
indeed the same slice over the same heap. -/
theorem C3_rejected_value_keeps_elements (E : Env α) (st : State α) (x : Value α)
    (hc : (E.CoerceData (fixType E (tVector.ElemType st) x) x).2 = false) :
    (elems (tVector.Push E st x) = elems st ∧
      tVector.Len (tVector.Push E st x) = tVector.Len st ∧
      (∀ k : Int, tVector.At (tVector.Push E st x) k = tVector.At st k) ∧
      (tVector.Push E st x).heap = st.heap ∧ (tVector.Push E st x).p.l = st.p.l) ∧
    (∀ i : Int, ∃ st', tVector.Set E st i x = some st' ∧
      elems st' = elems st ∧
      tVector.Len st' = tVector.Len st ∧
      (∀ k : Int, tVector.At st' k = tVector.At st k) ∧
      st'.heap = st.heap ∧ st'.p.l = st.p.l) := by
  constructor
  · rw [Push_reject E st x hc]
    exact ⟨rfl, rfl, fun _ => rfl, rfl, rfl⟩
  · intro i
    exact ⟨_, Set_reject E st i x hc, rfl, rfl, fun _ => rfl, rfl, rfl⟩

/-- Witness of C3: the integer `7` is not coercible to the string type of
`["a","b"]`. -/
theorem C3_rejected_value_keeps_elements_witness :
    elems (tVector.Push sampleEnv (sampleVec [sv "a", sv "b"]) (Value.dyn (Atom.i32 7))) =
      [sv "a", sv "b"] ∧
    ∃ st', tVector.Set sampleEnv (sampleVec [sv "a", sv "b"]) 0 (Value.dyn (Atom.i32 7)) =
        some st' ∧ elems st' = [sv "a", sv "b"] := by
  have w := C3_rejected_value_keeps_elements sampleEnv (sampleVec [sv "a", sv "b"])
    (Value.dyn (Atom.i32 7)) (by decide)
  have e : elems (sampleVec [sv "a", sv "b"]) = [sv "a", sv "b"] := by decide
  refine ⟨by rw [w.1.1, e], ?_⟩
  obtain ⟨st', h1, h2, _⟩ := w.2 0
  exact ⟨st', h1, by rw [h2, e]⟩

/-- C4: for a vector `st` and a value `x` whose coercion to the element type
(the type in force once `Push` has fixed an unset type) gives `c`, `Push(x)`
followed by `Pop()` returns `c` and leaves the length and the element
sequence of `st`: `At(k)` is as before at every index. -/
theorem C4_push_then_pop (E : Env α) (st : State α) (x c : Value α) (hwf : WF st)
    (hc : E.CoerceData (fixType E (tVector.ElemType st) x) x = (c, true)) :
    ∃ st', tVector.Pop (tVector.Push E st x) = some (c, st') ∧
      tVector.Len st' = tVector.Len st ∧
      elems st' = elems st ∧
      ∀ k : Int, tVector.At st' k = tVector.At st k := by
  obtain ⟨w1, w2, w3, _⟩ := Push_ok E x c hwf hc
  obtain ⟨v, st', hp, _, hv, hel, hlen, _, _⟩ := Pop_ok w1 (by omega)
  have hl : (elems st).length = st.p.l.len := by simp only [elems, sliceElems_length hwf]
  have hlen' : st'.p.l.len = st.p.l.len := by omega
  have hel' : elems st' = elems st := by
    rw [hel, w2, w3, Nat.add_sub_cancel, ← hl]
    exact List.take_left _ _
  have hvc : v = c := by
    rw [w2, w3, Nat.add_sub_cancel, ← hl] at hv
    simpa using hv.symm
  subst hvc
  exact ⟨st', hp, by simp [tVector.Len, hlen'], hel', At_congr hlen' hel'⟩

/-- Witness of C4: `Push("c")` then `Pop()` on `["a","b"]`. -/
theorem C4_push_then_pop_witness :
    ∃ st', tVector.Pop (tVector.Push sampleEnv (sampleVec [sv "a", sv "b"]) (sv "c")) =
        some (sv "c", st') ∧
      tVector.Len st' = tVector.Len (sampleVec [sv "a", sv "b"]) ∧
      elems st' = elems (sampleVec [sv "a", sv "b"]) ∧
      ∀ k : Int, tVector.At st' k = tVector.At (sampleVec [sv "a", sv "b"]) k :=
  C4_push_then_pop sampleEnv (sampleVec [sv "a", sv "b"]) (sv "c") (sv "c")
    (by decide) (by decide)

/-! ## Insert and Delete -/

theorem sliceTo_eq (s : Slice) (i : Int) (h0 : 0 ≤ i) (h1 : i ≤ (s.cap : Int)) :
    sliceTo s i = some { arr := s.arr, off := s.off, len := i.toNat, cap := s.cap } := by
  simp [sliceTo, h0, h1]

theorem sliceFrom_eq (s : Slice) (i : Int) (h0 : 0 ≤ i) (h1 : i ≤ (s.len : Int)) :
    sliceFrom s i = some { arr := s.arr, off := s.off + i.toNat, len := s.len - i.toNat,
                           cap := s.cap - i.toNat } := by
  simp [sliceFrom, h0, h1]

/-- What `Insert(i, x)` does for `0 ≤ i ≤ Len()`: the elements before `i`, then
`x`, then ONE element, the slice value `p.l[i:]` itself. The new length is
`i + 2`. -/
theorem Insert_elems (E : Env α) {st : State α} (i : Int) (x : Value α) (hwf : WF st)
    (h0 : 0 ≤ i) (h1 : i ≤ tVector.Len st) :
    ∃ st', tVector.Insert E st i x = some st' ∧ WF st' ∧
      elems st' = (elems st).take i.toNat ++
        [x, Value.slice { arr := st.p.l.arr, off := st.p.l.off + i.toNat,
                          len := st.p.l.len - i.toNat, cap := st.p.l.cap - i.toNat }] ∧
      tVector.Len st' = i + 2 ∧ st'.p.elemType = st.p.elemType := by
  have hi : i ≤ (st.p.l.len : Int) := h1
  have hcap := hwf.1
  have hn : i.toNat ≤ st.p.l.len := by omega
  have e1 := sliceTo_eq st.p.l i h0 (by omega)
  have e2 := sliceFrom_eq st.p.l i h0 hi
  have vleft : Slice.Valid st.heap
      { arr := st.p.l.arr, off := st.p.l.off, len := i.toNat, cap := st.p.l.cap } :=
    ⟨by show i.toNat ≤ st.p.l.cap; omega, hwf.2⟩
  have va := append_valid E x vleft
  have ea := append_elems E x vleft
  have vb := append_valid E
    (Value.slice ⟨st.p.l.arr, st.p.l.off + i.toNat, st.p.l.len - i.toNat, st.p.l.cap - i.toNat⟩) va
  have eb := append_elems E
    (Value.slice ⟨st.p.l.arr, st.p.l.off + i.toNat, st.p.l.len - i.toNat, st.p.l.cap - i.toNat⟩) va
  rw [ea, sliceElems_shrink st.heap st.p.l i.toNat hn] at eb
  have hI : tVector.Insert E st i x =
      some ⟨(append E (append E st.heap ⟨st.p.l.arr, st.p.l.off, i.toNat, st.p.l.cap⟩ x).1
              (append E st.heap ⟨st.p.l.arr, st.p.l.off, i.toNat, st.p.l.cap⟩ x).2
              (Value.slice ⟨st.p.l.arr, st.p.l.off + i.toNat, st.p.l.len - i.toNat,
                st.p.l.cap - i.toNat⟩)).1,
            ⟨st.p.elemType,
             (append E (append E st.heap ⟨st.p.l.arr, st.p.l.off, i.toNat, st.p.l.cap⟩ x).1
              (append E st.heap ⟨st.p.l.arr, st.p.l.off, i.toNat, st.p.l.cap⟩ x).2
              (Value.slice ⟨st.p.l.arr, st.p.l.off + i.toNat, st.p.l.len - i.toNat,
                st.p.l.cap - i.toNat⟩)).2⟩⟩ := by
    simp only [tVector.Insert, e1, e2]
  have hl0 : (sliceElems st.heap st.p.l).length = st.p.l.len := sliceElems_length hwf
  have hl := sliceElems_length vb
  rw [eb, List.length_append, List.length_append,
    List.length_take_of_le (by rw [hl0]; exact hn)] at hl
  refine ⟨_, hI, vb, ?_, ?_, rfl⟩
  · show sliceElems _ _ = _
    rw [eb]
    simp [elems]
  · simp only [List.length_singleton] at hl
    unfold tVector.Len
    rw [← hl]
    push_cast
    omega

/-- What `Delete(i)` does for a valid index `i`: the elements before `i`, then
ONE element, the slice value `p.l[i+1:]` itself. The new length is `i + 1`. -/
theorem Delete_elems (E : Env α) {st : State α} (i : Int) (hwf : WF st)
    (h0 : 0 ≤ i) (h1 : i < tVector.Len st) :
    ∃ st', tVector.Delete E st i = some st' ∧ WF st' ∧
      elems st' = (elems st).take i.toNat ++
        [Value.slice { arr := st.p.l.arr, off := st.p.l.off + (i + 1).toNat,
                       len := st.p.l.len - (i + 1).toNat,
                       cap := st.p.l.cap - (i + 1).toNat }] ∧
      tVector.Len st' = i + 1 ∧ st'.p.elemType = st.p.elemType := by
  have hi : i < (st.p.l.len : Int) := h1
  have hcap := hwf.1
  have hn : i.toNat ≤ st.p.l.len := by omega
  have e1 := sliceTo_eq st.p.l i h0 (by omega)
  have e2 := sliceFrom_eq st.p.l (i + 1) (by omega) (by omega)
  have vleft : Slice.Valid st.heap
      { arr := st.p.l.arr, off := st.p.l.off, len := i.toNat, cap := st.p.l.cap } :=
    ⟨by show i.toNat ≤ st.p.l.cap; omega, hwf.2⟩
  have va := append_valid E
    (Value.slice ⟨st.p.l.arr, st.p.l.off + (i + 1).toNat, st.p.l.len - (i + 1).toNat,
      st.p.l.cap - (i + 1).toNat⟩) vleft
  have ea := append_elems E
    (Value.slice ⟨st.p.l.arr, st.p.l.off + (i + 1).toNat, st.p.l.len - (i + 1).toNat,
      st.p.l.cap - (i + 1).toNat⟩) vleft
  rw [sliceElems_shrink st.heap st.p.l i.toNat hn] at ea
  have hD : tVector.Delete E st i =
      some ⟨(append E st.heap ⟨st.p.l.arr, st.p.l.off, i.toNat, st.p.l.cap⟩
              (Value.slice ⟨st.p.l.arr, st.p.l.off + (i + 1).toNat,
                st.p.l.len - (i + 1).toNat, st.p.l.cap - (i + 1).toNat⟩)).1,
            ⟨st.p.elemType,
             (append E st.heap ⟨st.p.l.arr, st.p.l.off, i.toNat, st.p.l.cap⟩
              (Value.slice ⟨st.p.l.arr, st.p.l.off + (i + 1).toNat,
                st.p.l.len - (i + 1).toNat, st.p.l.cap - (i + 1).toNat⟩)).2⟩⟩ := by
    simp only [tVector.Delete, e1, e2]
  have hl0 : (sliceElems st.heap st.p.l).length = st.p.l.len := sliceElems_length hwf
  have hl := sliceElems_length va
  rw [ea, List.length_append, List.length_take_of_le (by rw [hl0]; exact hn)] at hl
  refine ⟨_, hD, va, ea, ?_, rfl⟩
  simp only [List.length_singleton] at hl
  unfold tVector.Len
  rw [← hl]
  push_cast
  omega

/-- C5 at its own scenario and at index 0: `Insert(1, "x")` on `["a","c"]` gives
length 3 with `At(2)` the slice value `p.l[1:]`, not `"c"`; `Insert(0, "x")` on
`["a","c"]` gives length 2, `"x"` followed by the slice value `p.l[0:]`. -/
theorem C5_insert_evaluated :
    (tVector.Insert sampleEnv (sampleVec [sv "a", sv "c"]) 1 (sv "x")).map
        (fun s => (tVector.Len s, tVector.At s 0, tVector.At s 1, tVector.At s 2)) =
      some (3, some (sv "a"), some (sv "x"), some (Value.slice ⟨1, 1, 1, 1⟩)) ∧
    (tVector.Insert sampleEnv (sampleVec [sv "a", sv "c"]) 0 (sv "x")).map
        (fun s => (tVector.Len s, tVector.At s 0, tVector.At s 1)) =
      some (2, some (sv "x"), some (Value.slice ⟨1, 0, 2, 2⟩)) := by
  decide

/-- C6 at its own scenario and at index 0: `Delete(1)` on `["a","b","c"]` gives
length 2 with `At(1)` the slice value `p.l[2:]`, not `"c"`; `Delete(0)` on
`["a","b","c"]` gives length 1, the slice value `p.l[1:]` alone. -/
theorem C6_delete_evaluated :
    (tVector.Delete sampleEnv (sampleVec [sv "a", sv "b", sv "c"]) 1).map
        (fun s => (tVector.Len s, tVector.At s 0, tVector.At s 1)) =
      some (2, some (sv "a"), some (Value.slice ⟨2, 2, 1, 2⟩)) ∧
    (tVector.Delete sampleEnv (sampleVec [sv "a", sv "b", sv "c"]) 0).map
        (fun s => (tVector.Len s, tVector.At s 0)) =
      some (1, some (Value.slice ⟨2, 1, 2, 3⟩)) := by
  decide

/-- C7 at `["a","c"]`: `Insert(1, "x")` followed by `Delete(1)` leaves length 2
with `At(1)` a slice value, not `"c"`; `Insert(2, "x")` followed by `Delete(2)`
leaves length 3. -/
theorem C7_insert_delete_evaluated :
    tVector.Len (sampleVec [sv "a", sv "c"]) = 2 ∧
    tVector.At (sampleVec [sv "a", sv "c"]) 1 = some (sv "c") ∧
    ((tVector.Insert sampleEnv (sampleVec [sv "a", sv "c"]) 1 (sv "x")).bind
        (fun s => tVector.Delete sampleEnv s 1)).map
        (fun s => (tVector.Len s, tVector.At s 0, tVector.At s 1)) =
      some (2, some (sv "a"), some (Value.slice ⟨2, 2, 1, 2⟩)) ∧
    ((tVector.Insert sampleEnv (sampleVec [sv "a", sv "c"]) 2 (sv "x")).bind
        (fun s => tVector.Delete sampleEnv s 2)).map
        (fun s => (tVector.Len s, tVector.At s 0, tVector.At s 1, tVector.At s 2)) =
      some (3, some (sv "a"), some (sv "c"), some (Value.slice ⟨2, 3, 1, 1⟩)) := by
  decide

/-! ## Search -/

theorem isNil_iff (v : Value α) : v.isNil = true ↔ v = Value.nil := by
  cases v <;> simp [Value.isNil]

/-- The search loop over a well-formed vector, when the test does not panic on
an element: it returns the least index from `i` on whose element passes the
test, or `-1` when none does. -/
theorem searchLoop_spec {st : State α} (hwf : WF st) (test : Value α → Option Bool)
    (htot : ∀ (k : Nat) (v : Value α), (elems st)[k]? = some v → test v ≠ none) :
    ∀ (n i : Nat), i + n = st.p.l.len →
      ∃ r : Int, searchLoop st test n i = some r ∧
        ((r = -1 ∧ ∀ (k : Nat) (v : Value α), i ≤ k → (elems st)[k]? = some v →
            test v = some false) ∨
         (∃ k : Nat, r = (k : Int) ∧ i ≤ k ∧ k < st.p.l.len ∧
            (∃ v, (elems st)[k]? = some v ∧ test v = some true) ∧
            ∀ (j : Nat) (v : Value α), i ≤ j → j < k → (elems st)[j]? = some v →
              test v = some false)) := by
  intro n
  induction n with
  | zero =>
    intro i hin
    refine ⟨-1, rfl, Or.inl ⟨rfl, ?_⟩⟩
    intro k v hik hv
    have hl : (elems st).length = st.p.l.len := sliceElems_length hwf
    have hlt : k < (elems st).length := by
      by_contra hge
      rw [List.getElem?_eq_none (Nat.le_of_not_lt hge)] at hv
      exact Option.noConfusion hv
    omega
  | succ n ih =>
    intro i hin
    obtain ⟨v, hv, hv2⟩ := At_eq_some hwf i (by omega)
    have hne := htot i v hv2
    cases hb : test v with
    | none => exact absurd hb hne
    | some b =>
      cases b with
      | true =>
        refine ⟨(i : Int), by simp only [searchLoop, hv, hb], Or.inr ⟨i, rfl, Nat.le_refl i,
          by omega, ⟨v, hv2, hb⟩, ?_⟩⟩
        intro j w hij hji _
        omega
      | false =>
        obtain ⟨r, hr, hcase⟩ := ih (i + 1) (by omega)
        refine ⟨r, by simp only [searchLoop, hv, hb]; exact hr, ?_⟩
        rcases hcase with ⟨hm, hall⟩ | ⟨k, hk, hik, hkl, hfound, hbefore⟩
        · refine Or.inl ⟨hm, ?_⟩
          intro k w hik hw
          by_cases hki : k = i
          · subst hki
            rw [hv2] at hw
            cases hw
            exact hb
          · exact hall k w (by omega) hw
        · refine Or.inr ⟨k, hk, by omega, hkl, hfound, ?_⟩
          intro j w hij hjk hw
          by_cases hji : j = i
          · subst hji
            rw [hv2] at hw
            cases hw
            exact hb
          · exact hbefore j w (by omega) hjk hw

theorem At_some_elems {st : State α} (k : Int) (v : Value α)
    (h : tVector.At st k = some v) :
    0 ≤ k ∧ k < tVector.Len st ∧ (elems st)[k.toNat]? = some v := by
  by_cases hv : 0 ≤ k ∧ k < tVector.Len st
  · have hk : k.toNat < st.p.l.len := by simp [tVector.Len] at hv; omega
    have e := At_eq_getElem? st k.toNat hk
    have hkk : ((k.toNat : Nat) : Int) = k := by omega
    rw [hkk, h] at e
    exact ⟨hv.1, hv.2, e.symm⟩
  · rw [At_none st k hv] at h
    exact Option.noConfusion h

theorem elems_some_At {st : State α} (hwf : WF st) (k : Nat) (v : Value α)
    (h : (elems st)[k]? = some v) :
    tVector.At st (k : Int) = some v ∧ k < st.p.l.len := by
  have hl : (elems st).length = st.p.l.len := sliceElems_length hwf
  have hlt : k < (elems st).length := by
    by_contra hge
    rw [List.getElem?_eq_none (Nat.le_of_not_lt hge)] at h
    exact Option.noConfusion h
  exact ⟨by rw [At_eq_getElem? st k (by omega)]; exact h, by omega⟩

/-- The search loop run over the whole vector, stated on `At`. -/
theorem searchLoop_At {st : State α} (hwf : WF st) (test : Value α → Option Bool)
    (htot : ∀ (k : Int) (v : Value α), tVector.At st k = some v → test v ≠ none) :
    ∃ r : Int, searchLoop st test st.p.l.len 0 = some r ∧
      ((r = -1 ∧ ∀ (k : Int) (v : Value α), tVector.At st k = some v → test v = some false) ∨
       (0 ≤ r ∧ r < tVector.Len st ∧ (∃ v, tVector.At st r = some v ∧ test v = some true) ∧
          ∀ (j : Int) (v : Value α), j < r → tVector.At st j = some v →
            test v = some false)) ∧
      (decide (0 ≤ r) = true ↔
        ∃ (k : Int) (v : Value α), tVector.At st k = some v ∧ test v = some true) := by
  have htot' : ∀ (k : Nat) (v : Value α), (elems st)[k]? = some v → test v ≠ none :=
    fun k v hv => htot (k : Int) v (elems_some_At hwf k v hv).1
  obtain ⟨r, hr, hcase⟩ := searchLoop_spec hwf test htot' st.p.l.len 0 (by omega)
  rcases hcase with ⟨hm, hall⟩ | ⟨k, hk, _, hkl, ⟨v, hv, hvt⟩, hbefore⟩
  · have hall' : ∀ (k : Int) (v : Value α), tVector.At st k = some v → test v = some false := by
      intro k v hv
      exact hall k.toNat v (Nat.zero_le _) (At_some_elems k v hv).2.2
    refine ⟨r, hr, Or.inl ⟨hm, hall'⟩, ?_⟩
    subst hm
    constructor
    · intro h; exact absurd h (by decide)
    · rintro ⟨k, v, hv, ht⟩
      rw [hall' k v hv] at ht
      exact absurd ht (by decide)
  · have hAt := (elems_some_At hwf k v hv).1
    subst hk
    refine ⟨(k : Int), hr, Or.inr ⟨by omega, by simp [tVector.Len]; exact hkl,
      ⟨v, hAt, hvt⟩, ?_⟩, ?_⟩
    · intro j w hj hw
      obtain ⟨h0, _, he⟩ := At_some_elems j w hw
      exact hbefore j.toNat w (Nat.zero_le _) (by omega) he
    · constructor
      · intro _; exact ⟨(k : Int), v, hAt, hvt⟩
      · intro _; exact decide_eq_true (by omega)

/-- What `Contains` answers, from what the search loop returned. -/
theorem contains_of_search {r : Int} {P Q : Prop} (o : Option Int) (ho : o = some r)
    (hcase : (r = -1 ∧ Q) ∨ (0 ≤ r ∧ P)) (hP : P → ¬ Q) :
    (o.map (fun r => decide (0 ≤ r)) = some true ↔ P) ∧
    (o.map (fun r => decide (0 ≤ r)) = some false ↔ Q) := by
  subst ho
  rcases hcase with ⟨hm, hq⟩ | ⟨h0, hp⟩
  · subst hm
    exact ⟨⟨fun h => by simp at h, fun hp => absurd hq (hP hp)⟩, ⟨fun _ => hq, fun _ => by simp⟩⟩
  · refine ⟨⟨fun _ => hp, fun _ => by simp [h0]⟩, ⟨fun h => ?_, fun hq => absurd hq (hP hp)⟩⟩
    simp [h0] at h

/-- C10: on every vector and in every environment, `indexOf(nil)` returns the
least index whose element is nil, or `-1` when no element is nil, whatever
coercion would do; `Contains(nil)` is true exactly when some element is nil,
and false exactly when none is. -/
theorem C10_indexOf_nil (E : Env α) (st : State α) (hwf : WF st) :
    (∃ r : Int, tVector.indexOf E st Value.nil = some r ∧
      ((r = -1 ∧ ∀ k : Int, tVector.At st k ≠ some Value.nil) ∨
       (0 ≤ r ∧ r < tVector.Len st ∧ tVector.At st r = some Value.nil ∧
          ∀ j : Int, j < r → tVector.At st j ≠ some Value.nil))) ∧
    (tVector.Contains E st Value.nil = some true ↔
      ∃ k : Int, tVector.At st k = some Value.nil) ∧
    (tVector.Contains E st Value.nil = some false ↔
      ∀ k : Int, tVector.At st k ≠ some Value.nil) ∧
    (∀ E' : Env α, tVector.indexOf E' st Value.nil = tVector.indexOf E st Value.nil) := by
  have hidx : ∀ F : Env α, tVector.indexOf F st Value.nil =
      searchLoop st (fun v => some v.isNil) st.p.l.len 0 := by
    intro F; simp [tVector.indexOf, Value.isNil]
  obtain ⟨r, hr, hcase, _⟩ := searchLoop_At hwf (fun v => some v.isNil)
    (fun _ _ _ => by simp)
  have hcase' : (r = -1 ∧ ∀ k : Int, tVector.At st k ≠ some Value.nil) ∨
      (0 ≤ r ∧ r < tVector.Len st ∧ tVector.At st r = some Value.nil ∧
        ∀ j : Int, j < r → tVector.At st j ≠ some Value.nil) := by
    rcases hcase with ⟨hm, hall⟩ | ⟨h0, h1, ⟨v, hv, hvt⟩, hbefore⟩
    · refine Or.inl ⟨hm, ?_⟩
      intro k hk
      have := hall k Value.nil hk
      simp [Value.isNil] at this
    · refine Or.inr ⟨h0, h1, ?_, ?_⟩
      · have hvn : v = Value.nil := (isNil_iff v).mp (by simpa using hvt)
        rw [hv, hvn]
      · intro j hj hk
        have := hbefore j Value.nil hj hk
        simp [Value.isNil] at this
  have hidxE : tVector.indexOf E st Value.nil = some r := by rw [hidx E, hr]
  have hc : (r = -1 ∧ ∀ k : Int, tVector.At st k ≠ some Value.nil) ∨
      (0 ≤ r ∧ ∃ k : Int, tVector.At st k = some Value.nil) := by
    rcases hcase' with h | ⟨h0, _, h2, _⟩
    · exact Or.inl h
    · exact Or.inr ⟨h0, r, h2⟩
  have hcon := contains_of_search (tVector.indexOf E st Value.nil) hidxE hc
    (fun ⟨k, hk⟩ hall => hall k hk)
  exact ⟨⟨r, hidxE, hcase'⟩, hcon.1, hcon.2, fun E' => by rw [hidx E', hidx E]⟩

/-- Witness of C10: a vector holding a nil element at index 0. -/
theorem C10_indexOf_nil_witness :
    tVector.indexOf sampleEnv (sampleVec [Value.nil, sv "b"]) Value.nil = some 0 ∧
    (tVector.Contains sampleEnv (sampleVec [Value.nil, sv "b"]) Value.nil = some true ↔
      ∃ k : Int, tVector.At (sampleVec [Value.nil, sv "b"]) k = some Value.nil) :=
  ⟨by decide, (C10_indexOf_nil sampleEnv (sampleVec [Value.nil, sv "b"]) (by decide)).2.1⟩

/-- In the primitive-or-enum branch `indexOf` is the search loop with the test
`c == At(k)`. -/
theorem indexOf_primitive_eq (E : Env α) (st : State α) (x c : Value α)
    (hprim : (E.IsBaseType st.p.elemType || E.IsEnum st.p.elemType) = true)
    (hx : x ≠ Value.nil) (hc : E.CoerceData st.p.elemType x = (c, true))
    (hcn : c ≠ Value.nil) :
    tVector.indexOf E st x = searchLoop st (fun v => goEq E c v) st.p.l.len 0 := by
  have hx' : x.isNil = false := by
    cases hb : x.isNil with
    | false => rfl
    | true => exact absurd ((isNil_iff x).mp hb) hx
  have hcn' : c.isNil = false := by
    cases hb : c.isNil with
    | false => rfl
    | true => exact absurd ((isNil_iff c).mp hb) hcn
  simp only [tVector.indexOf, hx', hc, hcn', hprim]
  simp

/-- C9: on a vector whose element type is primitive or enum, for a non-nil `x`
coerced by that type to a non-nil `c` whose comparison `c == At(k)` panics at
no element (`c` is of a comparable type, as primitive and enum values are),
`indexOf(x)` returns the least index whose element is `==` to `c`, or `-1`
when there is none, and `Contains(x)` is true exactly when some element is
`==` to `c`. -/
theorem C9_indexOf_primitive (E : Env α) (st : State α) (x c : Value α) (hwf : WF st)
    (hprim : (E.IsBaseType (tVector.ElemType st) || E.IsEnum (tVector.ElemType st)) = true)
    (hx : x ≠ Value.nil)
    (hc : E.CoerceData (tVector.ElemType st) x = (c, true))
    (hcn : c ≠ Value.nil)
    (hcmp : ∀ (k : Int) (v : Value α), tVector.At st k = some v → goEq E c v ≠ none) :
    (∃ r : Int, tVector.indexOf E st x = some r ∧
      ((r = -1 ∧ ∀ (k : Int) (v : Value α), tVector.At st k = some v →
          goEq E c v = some false) ∨
       (0 ≤ r ∧ r < tVector.Len st ∧
         (∃ v, tVector.At st r = some v ∧ goEq E c v = some true) ∧
         ∀ (j : Int) (v : Value α), j < r → tVector.At st j = some v →
           goEq E c v = some false))) ∧
    (tVector.Contains E st x = some true ↔
      ∃ (k : Int) (v : Value α), tVector.At st k = some v ∧ goEq E c v = some true) ∧
    (tVector.Contains E st x = some false ↔
      ∀ (k : Int) (v : Value α), tVector.At st k = some v → goEq E c v = some false) := by
  have hidx := indexOf_primitive_eq E st x c hprim hx hc hcn
  obtain ⟨r, hr, hcase, _⟩ := searchLoop_At hwf (fun v => goEq E c v) hcmp
  have hidx' : tVector.indexOf E st x = some r := by rw [hidx, hr]
  have hc2 : (r = -1 ∧ ∀ (k : Int) (v : Value α), tVector.At st k = some v →
        goEq E c v = some false) ∨
      (0 ≤ r ∧ ∃ (k : Int) (v : Value α), tVector.At st k = some v ∧
        goEq E c v = some true) := by
    rcases hcase with h | ⟨h0, _, ⟨v, hv, hvt⟩, _⟩
    · exact Or.inl h
    · exact Or.inr ⟨h0, r, v, hv, hvt⟩
  have hcon := contains_of_search (tVector.indexOf E st x) hidx' hc2
    (fun ⟨k, v, hv, ht⟩ hall => by
      rw [hall k v hv] at ht
      exact absurd ht (by decide))
  exact ⟨⟨r, hidx', hcase⟩, hcon.1, hcon.2⟩

/-- Witness of C9: `indexOf("b") == 1` on `["a","b","c"]`. -/
theorem C9_indexOf_primitive_witness :
    tVector.indexOf sampleEnv (sampleVec [sv "a", sv "b", sv "c"]) (sv "b") = some 1 ∧
    (tVector.Contains sampleEnv (sampleVec [sv "a", sv "b", sv "c"]) (sv "b") = some true ↔
      ∃ (k : Int) (v : Value Atom),
        tVector.At (sampleVec [sv "a", sv "b", sv "c"]) k = some v ∧
        goEq sampleEnv (sv "b") v = some true) :=
  ⟨by decide,
   (C9_indexOf_primitive sampleEnv (sampleVec [sv "a", sv "b", sv "c"]) (sv "b") (sv "b")
      (by decide) (by decide) (by decide) (by decide) (by decide)
      (fun k v _ => by
        cases v with
        | nil => decide
        | dyn a => simp [goEq, sv, sampleEnv]
        | slice s => simp [goEq, sv])).2.1⟩

theorem isNil_false_of_ne {v : Value α} (hv : v ≠ Value.nil) : v.isNil = false := by
  cases hb : v.isNil with
  | false => rfl
  | true => exact absurd ((isNil_iff v).mp hb) hv

/-- C11: on every vector, whatever its type and contents, for a non-nil `x`
whose coercion to the element type fails, `indexOf(x)` returns `-1` and
`Contains(x)` is false. The search reads the vector only: `indexOf` and
`Contains` assign to no field and to no element, so there is no state after
the call other than the state before it. -/
theorem C11_indexOf_rejected (E : Env α) (st : State α) (x : Value α)
    (hx : x ≠ Value.nil)
    (hc : (E.CoerceData (tVector.ElemType st) x).2 = false) :
    tVector.indexOf E st x = some (-1) ∧ tVector.Contains E st x = some false := by
  unfold tVector.ElemType at hc
  have hidx : tVector.indexOf E st x = some (-1) := by
    simp [tVector.indexOf, isNil_false_of_ne hx, hc]
  exact ⟨hidx, by simp [tVector.Contains, hidx]⟩

/-- Witness of C11: the integer `7` on the string vector `["a","b"]`. -/
theorem C11_indexOf_rejected_witness :
    tVector.indexOf sampleEnv (sampleVec [sv "a", sv "b"]) (Value.dyn (Atom.i32 7)) =
      some (-1) ∧
    tVector.Contains sampleEnv (sampleVec [sv "a", sv "b"]) (Value.dyn (Atom.i32 7)) =
      some false :=
  C11_indexOf_rejected sampleEnv (sampleVec [sv "a", sv "b"]) (Value.dyn (Atom.i32 7))
    (by decide) (by decide)

/-! ## Swap and the reachable states -/

theorem sliceIndex_some_range {h : Heap α} {s : Slice} {i : Int} {v : Value α}
    (hv : sliceIndex h s i = some v) : 0 ≤ i ∧ i < (s.len : Int) := by
  by_contra hn
  rw [sliceIndex_none h s i hn] at hv
  exact Option.noConfusion hv

theorem sliceStore_some_range {h h' : Heap α} {s : Slice} {i : Int} {v : Value α}
    (hv : sliceStore h s i v = some h') : 0 ≤ i ∧ i < (s.len : Int) := by
  by_contra hn
  simp [sliceStore, hn] at hv

/-- `Swap(i, j)` at valid indices: the sequence with the two elements
exchanged, in the same slice. -/
theorem Swap_ok {st : State α} (hwf : WF st) (i j : Int)
    (hi0 : 0 ≤ i) (hi : i < tVector.Len st) (hj0 : 0 ≤ j) (hj : j < tVector.Len st) :
    ∃ st' vi vj, tVector.Swap st i j = some st' ∧ WF st' ∧
      (elems st)[i.toNat]? = some vi ∧ (elems st)[j.toNat]? = some vj ∧
      elems st' = ((elems st).set i.toNat vj).set j.toNat vi ∧ st'.p = st.p := by
  have hi' : i < (st.p.l.len : Int) := hi
  have hj' : j < (st.p.l.len : Int) := hj
  have hin : i.toNat < st.p.l.len := by omega
  have hjn : j.toNat < st.p.l.len := by omega
  obtain ⟨vi, hvi, hvi2⟩ := At_eq_some hwf i.toNat hin
  obtain ⟨vj, hvj, hvj2⟩ := At_eq_some hwf j.toNat hjn
  have ei : ((i.toNat : Nat) : Int) = i := by omega
  have ej : ((j.toNat : Nat) : Int) = j := by omega
  rw [ei] at hvi
  rw [ej] at hvj
  unfold tVector.At at hvi hvj
  have v1 : Slice.Valid (st.heap.set st.p.l.arr
      ((arrayAt st.heap st.p.l.arr).set (st.p.l.off + i.toNat) vj)) st.p.l :=
    store_valid i.toNat vj hwf
  have e1 := store_elems i.toNat vj hwf hin
  have v2 := store_valid j.toNat vi v1
  have e2 := store_elems j.toNat vi v1 hjn
  rw [e1] at e2
  have hS : tVector.Swap st i j =
      some ⟨(st.heap.set st.p.l.arr
              ((arrayAt st.heap st.p.l.arr).set (st.p.l.off + i.toNat) vj)).set st.p.l.arr
              ((arrayAt (st.heap.set st.p.l.arr
                ((arrayAt st.heap st.p.l.arr).set (st.p.l.off + i.toNat) vj)) st.p.l.arr).set
                (st.p.l.off + j.toNat) vi), st.p⟩ := by
    simp only [tVector.Swap, hvi, hvj, sliceStore_eq _ _ i vj hi0 hi',
      sliceStore_eq _ _ j vi hj0 hj', Option.map_some']
  exact ⟨_, vi, vj, hS, v2, hvi2, hvj2, e2, rfl⟩

theorem Swap_some_range {st st' : State α} {i j : Int}
    (hs : tVector.Swap st i j = some st') :
    (0 ≤ i ∧ i < tVector.Len st) ∧ (0 ≤ j ∧ j < tVector.Len st) := by
  unfold tVector.Swap at hs
  cases hj : sliceIndex st.heap st.p.l j with
  | none => simp [hj] at hs
  | some vj =>
    cases hi : sliceIndex st.heap st.p.l i with
    | none => simp [hj, hi] at hs
    | some vi => exact ⟨sliceIndex_some_range hi, sliceIndex_some_range hj⟩

theorem Pop_some_pos {st st' : State α} {v : Value α}
    (hp : tVector.Pop st = some (v, st')) : 0 < st.p.l.len := by
  unfold tVector.Pop at hp
  cases hl : sliceIndex st.heap st.p.l ((st.p.l.len : Int) - 1) with
  | none => simp [hl] at hp
  | some w =>
    have := sliceIndex_some_range hl
    omega

/-- Fixing an unset type keeps the origin of the values already stored. -/
theorem Coerced.retype {E : Env α} {t : TType} {v : Value α} (h : Coerced E t v)
    (x : Value α) : Coerced E (fixType E t x) v := by
  by_cases he : E.IsEmptyType t = true
  · rcases h with h | ⟨y, hy⟩ | h
    · exact Or.inl h
    · exact Or.inr (Or.inr ⟨t, y, he, hy⟩)
    · exact Or.inr (Or.inr h)
  · have he' : E.IsEmptyType t = false := by simpa using he
    rw [fixType_of_fixed E t x he']
    exact h

/-- The reachable states are well formed and conforming. -/
theorem Reach.inv {E : Env α} {st : State α} (hr : Reach E st) :
    WF st ∧ Conforming E st := by
  induction hr with
  | fresh h =>
    exact ⟨NewTVectorDefault_WF E h, fun v hv => by
      rw [NewTVectorDefault_elems] at hv; exact absurd hv (List.not_mem_nil v)⟩
  | sized h t s st hs =>
    have h0 : 0 ≤ s := by
      by_contra hn
      simp [NewTVector, hn] at hs
    obtain ⟨st0, h1, hwf0, hel0, _⟩ := NewTVector_WF h t s h0
    rw [hs] at h1
    cases h1
    refine ⟨hwf0, fun v hv => ?_⟩
    rw [hel0] at hv
    exact Or.inl (List.eq_of_mem_replicate hv)
  | push st x _ ih =>
    obtain ⟨hwf, hcf⟩ := ih
    cases hb : (E.CoerceData (fixType E st.p.elemType x) x).2 with
    | false =>
      rw [Push_reject E st x hb]
      exact ⟨hwf, fun v hv => (hcf v hv).retype x⟩
    | true =>
      have hc : E.CoerceData (fixType E st.p.elemType x) x =
          ((E.CoerceData (fixType E st.p.elemType x) x).1, true) := by rw [← hb]
      obtain ⟨w1, w2, _, w4⟩ := Push_ok E x _ hwf hc
      refine ⟨w1, fun v hv => ?_⟩
      rw [w2] at hv
      show Coerced E (tVector.Push E st x).p.elemType v
      rw [w4]
      rcases List.mem_append.mp hv with h | h
      · exact (hcf v h).retype x
      · have hvc : v = (E.CoerceData (fixType E st.p.elemType x) x).1 := by simpa using h
        exact Or.inr (Or.inl ⟨x, by rw [hvc, ← hb]⟩)
  | store st st' i x _ hs ih =>
    obtain ⟨hwf, hcf⟩ := ih
    cases hb : (E.CoerceData (fixType E st.p.elemType x) x).2 with
    | false =>
      rw [Set_reject E st i x hb] at hs
      cases hs
      exact ⟨hwf, fun v hv => (hcf v hv).retype x⟩
    | true =>
      have hc : E.CoerceData (fixType E st.p.elemType x) x =
          ((E.CoerceData (fixType E st.p.elemType x) x).1, true) := by rw [← hb]
      have hrange : 0 ≤ i ∧ i < (st.p.l.len : Int) := by
        unfold tVector.Set at hs
        simp only [hb, if_true] at hs
        cases hst : sliceStore st.heap st.p.l i (E.CoerceData (fixType E st.p.elemType x) x).1 with
        | none => simp [hst] at hs
        | some h' => exact sliceStore_some_range hst
      obtain ⟨st2, hs2, w1, w2, _, w4⟩ := Set_ok E i x _ hwf hrange.1 hrange.2 hc
      rw [hs] at hs2
      cases hs2
      refine ⟨w1, fun v hv => ?_⟩
      rw [w2] at hv
      show Coerced E st'.p.elemType v
      rw [w4]
      rcases List.mem_or_eq_of_mem_set hv with h | h
      · exact (hcf v h).retype x
      · exact Or.inr (Or.inl ⟨x, by rw [h, ← hb]⟩)
  | pop st st' v _ hp ih =>
    obtain ⟨hwf, hcf⟩ := ih
    obtain ⟨v2, st2, hp2, w1, _, w3, _, _, w6⟩ := Pop_ok hwf (Pop_some_pos hp)
    rw [hp] at hp2
    cases hp2
    refine ⟨w1, fun u hu => ?_⟩
    rw [w3] at hu
    show Coerced E st'.p.elemType u
    rw [w6]
    exact hcf u (List.mem_of_mem_take hu)
  | swap st st' i j _ hs ih =>
    obtain ⟨hwf, hcf⟩ := ih
    obtain ⟨⟨hi0, hi⟩, ⟨hj0, hj⟩⟩ := Swap_some_range hs
    obtain ⟨st2, vi, vj, hs2, w1, hvi, hvj, w2, w3⟩ := Swap_ok hwf i j hi0 hi hj0 hj
    rw [hs] at hs2
    cases hs2
    refine ⟨w1, fun u hu => ?_⟩
    rw [w2] at hu
    show Coerced E st'.p.elemType u
    rw [w3]
    rcases List.mem_or_eq_of_mem_set hu with h | h
    · rcases List.mem_or_eq_of_mem_set h with h' | h'
      · exact hcf u h'
      · rw [h']; exact hcf vj (List.getElem?_mem hvj)
    · rw [h]; exact hcf vi (List.getElem?_mem hvi)

/-- C12, as the code has it: in every state reached from `NewTVectorDefault()`
or `NewTVector(t, s)` through `Set`, `Push`, `Pop` and `Swap` calls that
return, every element is nil, or was produced by a successful coercion to the
element type of the vector, or was produced by a successful coercion to an
empty type (before the type was fixed). When a coercion to an empty type
produces nothing but nil, every element is nil or was produced by a
successful coercion to the element type, and that type is not empty. -/
theorem C12_conformity (E : Env α) (st : State α) (hr : Reach E st) :
    WF st ∧
    (∀ (k : Int) (v : Value α), tVector.At st k = some v →
      v = Value.nil ∨ (∃ y, E.CoerceData (tVector.ElemType st) y = (v, true)) ∨
      ∃ t0 y, E.IsEmptyType t0 = true ∧ E.CoerceData t0 y = (v, true)) ∧
    (EmptyCoercesNil E →
      ∀ (k : Int) (v : Value α), tVector.At st k = some v →
        v = Value.nil ∨
        (E.IsEmptyType (tVector.ElemType st) = false ∧
          ∃ y, E.CoerceData (tVector.ElemType st) y = (v, true))) := by
  obtain ⟨hwf, hcf⟩ := hr.inv
  have hall : ∀ (k : Int) (v : Value α), tVector.At st k = some v →
      Coerced E st.p.elemType v :=
    fun k v hv => hcf v (List.getElem?_mem (At_some_elems k v hv).2.2)
  refine ⟨hwf, hall, fun hE k v hv => ?_⟩
  by_cases hn : v = Value.nil
  · exact Or.inl hn
  · right
    rcases hall k v hv with h | ⟨y, hy⟩ | ⟨t0, y, ht0, hy⟩
    · exact absurd h hn
    · refine ⟨?_, y, hy⟩
      cases he : E.IsEmptyType st.p.elemType with
      | false => exact he
      | true => exact absurd (hE _ y v he hy) hn
    · exact absurd (hE t0 y v ht0 hy) hn

theorem sample_empty_coerces_nil : EmptyCoercesNil sampleEnv := by
  intro t y c ht hc
  have ht' : t = 0 ∨ t = VOID := by
    have : (t == 0 || t == VOID) = true := ht
    simpa using this
  have e : sampleCoerceData t y = (Value.nil, true) := by
    rcases ht' with h | h <;> subst h <;> rfl
  have hc' : sampleCoerceData t y = (c, true) := hc
  rw [e] at hc'
  exact (Prod.mk.inj hc').1.symm

/-- Witness of C12: the vector `["a","b"]` reached by `NewTVector(STRING, 2)`,
`Set(0, "a")`, `Set(1, "b")`. -/
theorem C12_conformity_witness :
    ((NewTVector ([] : Heap Atom) STRING 2).bind fun s =>
        (tVector.Set sampleEnv s 0 (sv "a")).bind fun s => tVector.Set sampleEnv s 1 (sv "b")) =
      some sizedVec ∧
    tVector.At sizedVec 1 = some (sv "b") ∧
    (sv "b" = Value.nil ∨
      (sampleEnv.IsEmptyType (tVector.ElemType sizedVec) = false ∧
        ∃ y, sampleEnv.CoerceData (tVector.ElemType sizedVec) y = (sv "b", true))) := by
  have h0 : NewTVector ([] : Heap Atom) STRING 2 =
      some ⟨[[Value.nil, Value.nil]], ⟨STRING, ⟨0, 0, 2, 2⟩⟩⟩ := by decide
  have h1 : tVector.Set sampleEnv ⟨[[Value.nil, Value.nil]], ⟨STRING, ⟨0, 0, 2, 2⟩⟩⟩ 0 (sv "a") =
      some ⟨[[sv "a", Value.nil]], ⟨STRING, ⟨0, 0, 2, 2⟩⟩⟩ := by decide
  have h2 : tVector.Set sampleEnv ⟨[[sv "a", Value.nil]], ⟨STRING, ⟨0, 0, 2, 2⟩⟩⟩ 1 (sv "b") =
      some sizedVec := by decide
  have hr : Reach sampleEnv sizedVec :=
    Reach.store _ _ 1 (sv "b")
      (Reach.store _ _ 0 (sv "a") (Reach.sized [] STRING 2 _ h0) h1) h2
  have hat : tVector.At sizedVec 1 = some (sv "b") := by decide
  exact ⟨by decide, hat,
    (C12_conformity sampleEnv sizedVec hr).2.2 sample_empty_coerces_nil 1 (sv "b") hat⟩

theorem sample_STRING_coerced (y v : Value Atom)
    (h : sampleEnv.CoerceData STRING y = (v, true)) : ∃ s, v = sv s := by
  have h' : sampleCoerceData STRING y = (v, true) := h
  rcases y with _ | a | sl
  · have e : sampleCoerceData STRING Value.nil = (sv "", true) := rfl
    rw [e] at h'
    exact ⟨"", (Prod.mk.inj h').1.symm⟩
  · cases a with
    | str s =>
      have e : sampleCoerceData STRING (Value.dyn (Atom.str s)) = (sv s, true) := rfl
      rw [e] at h'
      exact ⟨s, (Prod.mk.inj h').1.symm⟩
    | i32 n =>
      have e : sampleCoerceData STRING (Value.dyn (Atom.i32 n)) = (sv "", false) := rfl
      rw [e] at h'
      exact absurd (Prod.mk.inj h').2 (by decide)
    | obj k =>
      have e : sampleCoerceData STRING (Value.dyn (Atom.obj k)) = (sv "", false) := rfl
      rw [e] at h'
      exact absurd (Prod.mk.inj h').2 (by decide)
  · have e : sampleCoerceData STRING (Value.slice sl) = (sv "", false) := rfl
    rw [e] at h'
    exact absurd (Prod.mk.inj h').2 (by decide)

/-- C12 as stated fails in three ways. `NewTVector(STRING, 2)` holds two nil
elements under the non-empty type `STRING`, and no coercion to `STRING` gives
nil. `Insert(0, 7)` on `NewTVector(STRING, 0)` stores the integer `7`, which
no coercion to `STRING` gives. `Push(nil)`, `Push("b")` on a fresh vector
stores nil under the empty type `VOID` and then fixes the type `STRING`. -/
theorem C12_counterexample :
    ((NewTVector ([] : Heap Atom) STRING 2).map
        (fun s => (sampleEnv.IsEmptyType (tVector.ElemType s), tVector.At s 0)) =
      some (false, some Value.nil)) ∧
    (¬ ∃ y, sampleEnv.CoerceData STRING y = (Value.nil, true)) ∧
    (((NewTVector ([] : Heap Atom) STRING 0).bind
        (fun s => tVector.Insert sampleEnv s 0 (Value.dyn (Atom.i32 7)))).map
        (fun s => (sampleEnv.IsEmptyType (tVector.ElemType s), tVector.At s 0)) =
      some (false, some (Value.dyn (Atom.i32 7)))) ∧
    (¬ ∃ y, sampleEnv.CoerceData STRING y = (Value.dyn (Atom.i32 7), true)) ∧
    tVector.ElemType (sampleVec [Value.nil, sv "b"]) = STRING ∧
    tVector.At (sampleVec [Value.nil, sv "b"]) 0 = some Value.nil := by
  refine ⟨by decide, ?_, by decide, ?_, by decide, by decide⟩
  · rintro ⟨y, hy⟩
    obtain ⟨s, hs⟩ := sample_STRING_coerced y _ hy
    simp [sv] at hs
  · rintro ⟨y, hy⟩
    obtain ⟨s, hs⟩ := sample_STRING_coerced y _ hy
    simp [sv] at hs

/-- C13, as the code has it: when the coercion of `x` (to the type in force
once the call has fixed an unset type) fails, `Push(x)` and `Set(i, x)` leave
the heap, the slice and so the element sequence as they were, and the element
type after the call is `fixType`: the old type when that was not empty (the
call is then a no-op on the whole state), the classified type of `x` when the
old type was empty. -/
theorem C13_rejected_value_state (E : Env α) (st : State α) (x : Value α)
    (hc : (E.CoerceData (fixType E (tVector.ElemType st) x) x).2 = false) :
    ((tVector.Push E st x).heap = st.heap ∧ (tVector.Push E st x).p.l = st.p.l ∧
      elems (tVector.Push E st x) = elems st ∧
      tVector.ElemType (tVector.Push E st x) = fixType E (tVector.ElemType st) x ∧
      (E.IsEmptyType (tVector.ElemType st) = false → tVector.Push E st x = st) ∧
      (E.IsEmptyType (tVector.ElemType st) = true →
        tVector.ElemType (tVector.Push E st x) = E.TypeFromValue x)) ∧
    (∀ i : Int, ∃ st', tVector.Set E st i x = some st' ∧
      st'.heap = st.heap ∧ st'.p.l = st.p.l ∧ elems st' = elems st ∧
      tVector.ElemType st' = fixType E (tVector.ElemType st) x ∧
      (E.IsEmptyType (tVector.ElemType st) = false → st' = st) ∧
      (E.IsEmptyType (tVector.ElemType st) = true →
        tVector.ElemType st' = E.TypeFromValue x)) := by
  unfold tVector.ElemType at hc
  have hst : E.IsEmptyType st.p.elemType = false →
      (⟨st.heap, ⟨fixType E st.p.elemType x, st.p.l⟩⟩ : State α) = st := by
    intro hne
    rw [fixType_of_fixed E _ x hne]
  have hty : E.IsEmptyType st.p.elemType = true →
      fixType E st.p.elemType x = E.TypeFromValue x := by
    intro he
    simp [fixType, he]
  constructor
  · rw [Push_reject E st x hc]
    exact ⟨rfl, rfl, rfl, rfl, hst, hty⟩
  · intro i
    exact ⟨_, Set_reject E st i x hc, rfl, rfl, rfl, rfl, hst, hty⟩

/-- Witness of C13: the integer `7` on the string vector `["a","b"]`. -/
theorem C13_rejected_value_state_witness :
    tVector.Push sampleEnv (sampleVec [sv "a", sv "b"]) (Value.dyn (Atom.i32 7)) =
      sampleVec [sv "a", sv "b"] ∧
    ∃ st', tVector.Set sampleEnv (sampleVec [sv "a", sv "b"]) 0 (Value.dyn (Atom.i32 7)) =
        some st' ∧ st' = sampleVec [sv "a", sv "b"] := by
  have w := C13_rejected_value_state sampleEnv (sampleVec [sv "a", sv "b"])
    (Value.dyn (Atom.i32 7)) (by decide)
  refine ⟨w.1.2.2.2.2.1 (by decide), ?_⟩
  obtain ⟨st', h1, _, _, _, _, h6, _⟩ := w.2 0
  exact ⟨st', h1, h6 (by decide)⟩

/-- C13 as stated fails on a vector whose type is unset: a slice value is
classified `LIST`, to which the sample coercion of it fails; `Push` of it on a
fresh vector stores nothing and leaves the element type `LIST`, not `STOP`,
and `Set(0, ...)` of it on the vector holding one nil under the empty type
`VOID` does the same. -/
theorem C13_counterexample :
    (sampleEnv.CoerceData
        (fixType sampleEnv (tVector.ElemType (NewTVectorDefault sampleEnv []))
          (Value.slice ⟨0, 0, 0, 0⟩)) (Value.slice ⟨0, 0, 0, 0⟩)).2 = false ∧
    tVector.ElemType (NewTVectorDefault sampleEnv ([] : Heap Atom)) = 0 ∧
    tVector.ElemType
        (tVector.Push sampleEnv (NewTVectorDefault sampleEnv []) (Value.slice ⟨0, 0, 0, 0⟩)) = 15 ∧
    tVector.Len
        (tVector.Push sampleEnv (NewTVectorDefault sampleEnv []) (Value.slice ⟨0, 0, 0, 0⟩)) = 0 ∧
    tVector.ElemType (sampleVec [Value.nil]) = VOID ∧
    (tVector.Set sampleEnv (sampleVec [Value.nil]) 0 (Value.slice ⟨0, 0, 0, 0⟩)).map
        (fun s => (tVector.ElemType s, tVector.At s 0)) = some (15, some Value.nil) := by
  decide

/-! ## Last, the constructors, Iter -/

/-- C14: `Last()` never panics: on every vector it returns nil when `Len()` is
0 and exactly `At(Len()-1)` otherwise. It reads the vector only: `Last`
assigns to no field and to no element. -/
theorem C14_last_total (st : State α) (hwf : WF st) :
    (tVector.Len st = 0 → tVector.Last st = some Value.nil) ∧
    (0 < tVector.Len st →
      ∃ v, tVector.Last st = some v ∧ tVector.At st (tVector.Len st - 1) = some v) ∧
    (∃ v, tVector.Last st = some v) := by
  refine ⟨?_, ?_, ⟨_, Last_eq_getLast? hwf⟩⟩
  · intro h0
    simp [tVector.Last, h0]
  · intro hpos
    have hlen : 0 < st.p.l.len := by simp [tVector.Len] at hpos; exact hpos
    obtain ⟨v, hv, _⟩ := At_eq_some hwf (st.p.l.len - 1) (by omega)
    have e1 : ((st.p.l.len - 1 : Nat) : Int) = tVector.Len st - 1 := by
      simp only [tVector.Len]; omega
    rw [e1] at hv
    have hn : ¬ tVector.Len st ≤ 0 := by omega
    refine ⟨v, ?_, hv⟩
    simp only [tVector.Last, hn, if_false]
    exact hv

/-- Witness of C14: the empty vector and `["a","b","c"]`. -/
theorem C14_last_total_witness :
    tVector.Last (sampleVec []) = some Value.nil ∧
    ∃ v, tVector.Last (sampleVec [sv "a", sv "b", sv "c"]) = some v ∧
      tVector.At (sampleVec [sv "a", sv "b", sv "c"])
        (tVector.Len (sampleVec [sv "a", sv "b", sv "c"]) - 1) = some v :=
  ⟨(C14_last_total (sampleVec []) (by decide)).1 (by decide),
   (C14_last_total (sampleVec [sv "a", sv "b", sv "c"]) (by decide)).2.1 (by decide)⟩

/-- C15: for every type `t` and size `s ≥ 0`, `NewTVector(t, s)` returns a
vector with `ElemType() = t`, `Len() = s` and `At(i) = nil` for `0 ≤ i < s`;
`NewTVectorDefault()` has `Len() = 0` and the element type `STOP`, for which
`IsEmptyType` holds. -/
theorem C15_constructors (E : Env α) (h : Heap α) (t : TType) (s : Int) (hs : 0 ≤ s)
    (hstop : E.IsEmptyType E.STOP = true) :
    (∃ st, NewTVector h t s = some st ∧ WF st ∧
      tVector.ElemType st = t ∧ tVector.Len st = s ∧
      ∀ i : Int, 0 ≤ i → i < s → tVector.At st i = some Value.nil) ∧
    tVector.Len (NewTVectorDefault E h) = 0 ∧
    tVector.ElemType (NewTVectorDefault E h) = E.STOP ∧
    E.IsEmptyType (tVector.ElemType (NewTVectorDefault E h)) = true := by
  refine ⟨?_, rfl, rfl, hstop⟩
  obtain ⟨st, h1, hwf, hel, hty⟩ := NewTVector_WF h t s hs
  have hlen : st.p.l.len = s.toNat := by
    have := sliceElems_length hwf
    rw [← this]
    show (elems st).length = _
    rw [hel]; simp
  refine ⟨st, h1, hwf, hty, by simp only [tVector.Len, hlen]; omega, ?_⟩
  intro i h0 hi
  have hk : i.toNat < st.p.l.len := by omega
  have e := At_eq_getElem? st i.toNat hk
  have ei : ((i.toNat : Nat) : Int) = i := by omega
  rw [ei] at e
  rw [e, hel, List.getElem?_replicate]
  have : i.toNat < s.toNat := by omega
  simp [this]

/-- Witness of C15: `NewTVector(STRING, 2)`. -/
theorem C15_constructors_witness :
    (∃ st, NewTVector ([] : Heap Atom) STRING 2 = some st ∧ WF st ∧
      tVector.ElemType st = STRING ∧ tVector.Len st = 2 ∧
      ∀ i : Int, 0 ≤ i → i < 2 → tVector.At st i = some Value.nil) ∧
    tVector.Len (NewTVectorDefault sampleEnv ([] : Heap Atom)) = 0 :=
  ⟨(C15_constructors sampleEnv [] STRING 2 (by decide) (by decide)).1,
   (C15_constructors sampleEnv [] STRING 2 (by decide) (by decide)).2.1⟩

theorem delivered_sends (l : List (Value α)) :
    delivered (l.map ChanOp.send ++ [ChanOp.close]) = l := by
  induction l with
  | nil => rfl
  | cons v l ih => simp [delivered, ih]

/-- The loop of `iterate` sends the elements from index `i` on, in order. -/
theorem rangeSend_spec {h : Heap α} {s : Slice} (hv : Slice.Valid h s) :
    ∀ (n i : Nat), i + n = s.len →
      rangeSend h s n i = some (((sliceElems h s).drop i).map ChanOp.send) := by
  have hl : (sliceElems h s).length = s.len := sliceElems_length hv
  intro n
  induction n with
  | zero =>
    intro i hin
    have : (sliceElems h s).drop i = [] := List.drop_eq_nil_of_le (by omega)
    simp [rangeSend, this]
  | succ n ih =>
    intro i hin
    have hi : i < (sliceElems h s).length := by omega
    have e1 : sliceIndex h s (i : Int) = some ((sliceElems h s)[i]) := by
      rw [sliceIndex_nat h s i (by omega), List.getElem?_eq_getElem hi]
    simp only [rangeSend, e1, ih (i + 1) (by omega), Option.map_some']
    rw [List.drop_eq_getElem_cons hi]
    rfl

/-- C16: on a vector that nobody mutates meanwhile, the producer started by
`Iter()` performs exactly `Len()` sends, the `k`-th being `At(k)`, and then
closes the channel: the values delivered before the close are the element
sequence. -/
theorem C16_iter_delivers (st : State α) (hwf : WF st) :
    ∃ ops, tVector.Iter st = some ops ∧
      ops = (elems st).map ChanOp.send ++ [ChanOp.close] ∧
      delivered ops = elems st ∧
      ((delivered ops).length : Int) = tVector.Len st ∧
      ∀ k : Nat, (k : Int) < tVector.Len st →
        (delivered ops)[k]? = tVector.At st (k : Int) := by
  have hr := rangeSend_spec hwf st.p.l.len 0 (by omega)
  refine ⟨(elems st).map ChanOp.send ++ [ChanOp.close], ?_, rfl, delivered_sends _, ?_, ?_⟩
  · simp only [tVector.Iter, tVector.iterate, hr, Option.map_some', List.drop_zero]
    rfl
  · rw [delivered_sends, Len_eq_length hwf]
  · intro k hk
    have hk' : k < st.p.l.len := by simp [tVector.Len] at hk; exact hk
    rw [delivered_sends, At_eq_getElem? st k hk']

/-- Witness of C16: iterating over `["a","b"]`. -/
theorem C16_iter_delivers_witness :
    tVector.Iter (sampleVec [sv "a", sv "b"]) =
      some [ChanOp.send (sv "a"), ChanOp.send (sv "b"), ChanOp.close] ∧
    ∃ ops, tVector.Iter (sampleVec [sv "a", sv "b"]) = some ops ∧
      delivered ops = elems (sampleVec [sv "a", sv "b"]) := by
  obtain ⟨ops, h1, _, h3, _⟩ := C16_iter_delivers (sampleVec [sv "a", sv "b"]) (by decide)
  exact ⟨by decide, ops, h1, h3⟩

/-! ## Swap and the element type -/

/-- Exchanging two cells of a list. -/
theorem swap_list_get {β : Type} (l : List β) (a b : Nat) (va vb : β)
    (ha : l[a]? = some va) (hb : l[b]? = some vb) :
    ((l.set a vb).set b va)[a]? = some vb ∧
    ((l.set a vb).set b va)[b]? = some va ∧
    ∀ k : Nat, k ≠ a → k ≠ b → ((l.set a vb).set b va)[k]? = l[k]? := by
  have hal : a < l.length := by
    by_contra hge
    rw [List.getElem?_eq_none (Nat.le_of_not_lt hge)] at ha
    exact Option.noConfusion ha
  have hbl : b < l.length := by
    by_contra hge
    rw [List.getElem?_eq_none (Nat.le_of_not_lt hge)] at hb
    exact Option.noConfusion hb
  have hbl' : b < (l.set a vb).length := by simpa using hbl
  refine ⟨?_, List.getElem?_set_self hbl', ?_⟩
  · by_cases hab : a = b
    · subst hab
      rw [ha] at hb
      cases hb
      exact List.getElem?_set_self hbl'
    · rw [List.getElem?_set_ne (Ne.symm hab), List.getElem?_set_self hal]
  · intro k hka hkb
    rw [List.getElem?_set_ne (Ne.symm hkb), List.getElem?_set_ne (Ne.symm hka)]

/-- Exchanging the same two cells twice gives the list back. -/
theorem swap_list_twice {β : Type} (l : List β) (a b : Nat) (va vb : β)
    (ha : l[a]? = some va) (hb : l[b]? = some vb) :
    (((l.set a vb).set b va).set a va).set b vb = l := by
  have hal : a < l.length := by
    by_contra hge
    rw [List.getElem?_eq_none (Nat.le_of_not_lt hge)] at ha
    exact Option.noConfusion ha
  have hbl : b < l.length := by
    by_contra hge
    rw [List.getElem?_eq_none (Nat.le_of_not_lt hge)] at hb
    exact Option.noConfusion hb
  apply List.ext_getElem?
  intro k
  by_cases hkb : k = b
  · subst hkb
    rw [List.getElem?_set_self (by simpa using hbl), hb]
  · rw [List.getElem?_set_ne (Ne.symm hkb)]
    by_cases hka : k = a
    · subst hka
      rw [List.getElem?_set_self (by simpa using hal), ha]
    · rw [List.getElem?_set_ne (Ne.symm hka)]
      exact (swap_list_get l a b va vb ha hb).2.2 k hka hkb

/-- C17: for valid indices `i` and `j`, `Swap(i, j)` returns; afterwards
`At(i)` and `At(j)` are exchanged, every other `At(k)`, `Len()` and the
element type are as before, and a second `Swap(i, j)` gives back the original
element sequence. `Swap` calls no coercion: it does not depend on the type
descriptor at all. -/
theorem C17_swap (st : State α) (hwf : WF st) (i j : Int)
    (hi0 : 0 ≤ i) (hi : i < tVector.Len st) (hj0 : 0 ≤ j) (hj : j < tVector.Len st) :
    ∃ st', tVector.Swap st i j = some st' ∧
      tVector.At st' i = tVector.At st j ∧
      tVector.At st' j = tVector.At st i ∧
      (∀ k : Int, k ≠ i → k ≠ j → tVector.At st' k = tVector.At st k) ∧
      tVector.Len st' = tVector.Len st ∧
      tVector.ElemType st' = tVector.ElemType st ∧
      ∃ st'', tVector.Swap st' i j = some st'' ∧
        elems st'' = elems st ∧
        (∀ k : Int, tVector.At st'' k = tVector.At st k) ∧
        tVector.Len st'' = tVector.Len st ∧
        tVector.ElemType st'' = tVector.ElemType st := by
  obtain ⟨st', vi, vj, hs, hwf', hvi, hvj, hel, hp⟩ := Swap_ok hwf i j hi0 hi hj0 hj
  have hi' : i < (st.p.l.len : Int) := hi
  have hj' : j < (st.p.l.len : Int) := hj
  have hlen : st'.p.l.len = st.p.l.len := by rw [hp]
  have hLen : tVector.Len st' = tVector.Len st := by simp [tVector.Len, hlen]
  obtain ⟨g1, g2, g3⟩ := swap_list_get (elems st) i.toNat j.toNat vi vj hvi hvj
  rw [← hel] at g1 g2 g3
  have ei : ((i.toNat : Nat) : Int) = i := by omega
  have ej : ((j.toNat : Nat) : Int) = j := by omega
  have atI : ∀ s : State α, s.p.l.len = st.p.l.len →
      tVector.At s i = (elems s)[i.toNat]? := by
    intro s hsl
    have e := At_eq_getElem? s i.toNat (by omega)
    rw [ei] at e
    exact e
  have atJ : ∀ s : State α, s.p.l.len = st.p.l.len →
      tVector.At s j = (elems s)[j.toNat]? := by
    intro s hsl
    have e := At_eq_getElem? s j.toNat (by omega)
    rw [ej] at e
    exact e
  obtain ⟨st'', wi, wj, hs2, _, hwi, hwj, hel2, hp2⟩ :=
    Swap_ok hwf' i j hi0 (by rw [hLen]; exact hi) hj0 (by rw [hLen]; exact hj)
  rw [g1] at hwi
  rw [g2] at hwj
  cases hwi
  cases hwj
  have hback : elems st'' = elems st := by
    rw [hel2, hel]
    exact swap_list_twice (elems st) i.toNat j.toNat _ _ hvi hvj
  have hlen2 : st''.p.l.len = st.p.l.len := by rw [hp2, hp]
  refine ⟨st', hs, ?_, ?_, ?_, hLen, by simp [tVector.ElemType, hp], st'', hs2, hback,
    At_congr hlen2 hback, by simp [tVector.Len, hlen2], by simp [tVector.ElemType, hp2, hp]⟩
  · rw [atI st' hlen, atJ st rfl, g1, hvj]
  · rw [atJ st' hlen, atI st rfl, g2, hvi]
  · intro k hki hkj
    by_cases hv : 0 ≤ k ∧ k < (st.p.l.len : Int)
    · have e1 := At_eq_getElem? st k.toNat (by omega)
      have e2 := At_eq_getElem? st' k.toNat (by omega)
      have ek : ((k.toNat : Nat) : Int) = k := by omega
      rw [ek] at e1 e2
      rw [e1, e2]
      exact g3 k.toNat (by omega) (by omega)
    · rw [At_none st k hv, At_none st' k (by simpa [tVector.Len, hlen] using hv)]

/-- Witness of C17: `Swap(0, 2)` on `["a","b","c"]`. -/
theorem C17_swap_witness :
    (tVector.Swap (sampleVec [sv "a", sv "b", sv "c"]) 0 2).map elems =
      some [sv "c", sv "b", sv "a"] ∧
    ∃ st', tVector.Swap (sampleVec [sv "a", sv "b", sv "c"]) 0 2 = some st' ∧
      tVector.At st' 0 = tVector.At (sampleVec [sv "a", sv "b", sv "c"]) 2 ∧
      ∃ st'', tVector.Swap st' 0 2 = some st'' ∧
        elems st'' = elems (sampleVec [sv "a", sv "b", sv "c"]) := by
  obtain ⟨st', h1, h2, _, _, _, _, st'', h7, h8, _⟩ :=
    C17_swap (sampleVec [sv "a", sv "b", sv "c"]) (by decide) 0 2
      (by decide) (by decide) (by decide) (by decide)
  exact ⟨by decide, st', h1, h2, st'', h7, h8⟩

/-- C18: on a vector whose element type is not empty, the type that `Set` and
`Push` coerce to is that element type, and after `Push`, `Set`, `Pop`, `Swap`,
`Insert` or `Delete`, whatever the call did, `ElemType()` is as before.
`Contains`, `Less`, `Last` and `Iter` assign to no field: they are functions
of the state and leave none behind. -/
theorem C18_type_fixed_once (E : Env α) (st : State α)
    (hne : E.IsEmptyType (tVector.ElemType st) = false) :
    (∀ x : Value α, fixType E (tVector.ElemType st) x = tVector.ElemType st) ∧
    (∀ x : Value α, tVector.ElemType (tVector.Push E st x) = tVector.ElemType st) ∧
    (∀ (i : Int) (x : Value α) (st' : State α), tVector.Set E st i x = some st' →
      tVector.ElemType st' = tVector.ElemType st) ∧
    (∀ (v : Value α) (st' : State α), tVector.Pop st = some (v, st') →
      tVector.ElemType st' = tVector.ElemType st) ∧
    (∀ (i j : Int) (st' : State α), tVector.Swap st i j = some st' →
      tVector.ElemType st' = tVector.ElemType st) ∧
    (∀ (i : Int) (x : Value α) (st' : State α), tVector.Insert E st i x = some st' →
      tVector.ElemType st' = tVector.ElemType st) ∧
    (∀ (i : Int) (st' : State α), tVector.Delete E st i = some st' →
      tVector.ElemType st' = tVector.ElemType st) := by
  unfold tVector.ElemType at hne
  have hfix : ∀ x : Value α, fixType E st.p.elemType x = st.p.elemType :=
    fun x => fixType_of_fixed E _ x hne
  refine ⟨hfix, ?_, ?_, ?_, ?_, ?_, ?_⟩
  · intro x
    show (tVector.Push E st x).p.elemType = st.p.elemType
    unfold tVector.Push
    simp only []
    split <;> exact hfix x
  · intro i x st' hs
    show st'.p.elemType = st.p.elemType
    unfold tVector.Set at hs
    simp only [] at hs
    split at hs
    · cases hst : sliceStore st.heap st.p.l i (E.CoerceData (fixType E st.p.elemType x) x).1 with
      | none => simp [hst] at hs
      | some h' =>
        simp only [hst, Option.map_some', Option.some.injEq] at hs
        rw [← hs]
        exact hfix x
    · simp only [Option.some.injEq] at hs
      rw [← hs]
      exact hfix x
  · intro v st' hp
    show st'.p.elemType = st.p.elemType
    unfold tVector.Pop at hp
    split at hp
    · simp only [Option.some.injEq, Prod.mk.injEq] at hp
      rw [← hp.2]
    · exact Option.noConfusion hp
  · intro i j st' hs
    show st'.p.elemType = st.p.elemType
    obtain ⟨⟨hi0, hi⟩, ⟨hj0, hj⟩⟩ := Swap_some_range hs
    unfold tVector.Swap at hs
    split at hs
    · split at hs
      · obtain ⟨a, _, ha⟩ := Option.map_eq_some'.mp hs
        rw [← ha]
      · exact Option.noConfusion hs
    · exact Option.noConfusion hs
  · intro i x st' hs
    show st'.p.elemType = st.p.elemType
    unfold tVector.Insert at hs
    split at hs
    · simp only [Option.some.injEq] at hs
      rw [← hs]
    · exact Option.noConfusion hs
  · intro i st' hs
    show st'.p.elemType = st.p.elemType
    unfold tVector.Delete at hs
    split at hs
    · simp only [Option.some.injEq] at hs
      rw [← hs]
    · exact Option.noConfusion hs

/-- Witness of C18: on the string vector `["a","b"]`, a rejected `Push(7)`, an
accepted `Set(0, "z")`, a `Pop()` and an `Insert(1, 7)` keep the type. -/
theorem C18_type_fixed_once_witness :
    tVector.ElemType (sampleVec [sv "a", sv "b"]) = STRING ∧
    tVector.ElemType (tVector.Push sampleEnv (sampleVec [sv "a", sv "b"])
      (Value.dyn (Atom.i32 7))) = tVector.ElemType (sampleVec [sv "a", sv "b"]) ∧
    (tVector.Set sampleEnv (sampleVec [sv "a", sv "b"]) 0 (sv "z")).map tVector.ElemType =
      some STRING ∧
    (tVector.Pop (sampleVec [sv "a", sv "b"])).map (fun r => tVector.ElemType r.2) =
      some STRING ∧
    (tVector.Insert sampleEnv (sampleVec [sv "a", sv "b"]) 1 (Value.dyn (Atom.i32 7))).map
      tVector.ElemType = some STRING :=
  ⟨by decide,
   (C18_type_fixed_once sampleEnv (sampleVec [sv "a", sv "b"]) (by decide)).2.1
     (Value.dyn (Atom.i32 7)),
   by decide, by decide, by decide⟩

/-! ## The search dispatch -/

/-- Whatever the test, the search loop returns `-1` or an index it visited. -/
theorem searchLoop_range (st : State α) (test : Value α → Option Bool) :
    ∀ (n i : Nat) (r : Int), searchLoop st test n i = some r →
      r = -1 ∨ ((i : Int) ≤ r ∧ r < (i : Int) + (n : Int)) := by
  intro n
  induction n with
  | zero =>
    intro i r h
    simp only [searchLoop, Option.some.injEq] at h
    exact Or.inl h.symm
  | succ n ih =>
    intro i r h
    unfold searchLoop at h
    cases hv : tVector.At st (i : Int) with
    | none => simp [hv] at h
    | some v =>
      cases hb : test v with
      | none => simp [hv, hb] at h
      | some b =>
        cases b with
        | true =>
          simp only [hv, hb, Option.some.injEq] at h
          right
          omega
        | false =>
          simp only [hv, hb] at h
          rcases ih (i + 1) r h with h1 | h1
          · exact Or.inl h1
          · right
            push_cast at h1 ⊢
            omega

theorem assertCap_some_dyn {β : Type} {cap : α → Option β} {c : Value α} {e : β}
    (h : assertCap cap c = some e) : ∃ a, c = Value.dyn a ∧ cap a = some e := by
  cases c with
  | nil => exact Option.noConfusion h
  | dyn a => exact ⟨a, rfl, h⟩
  | slice s => exact Option.noConfusion h

/-- The generic branch of `indexOf` (lines 154-161). -/
theorem indexOf_generic_eq (E : Env α) (st : State α) (x c : Value α)
    (eq : Value α → Bool)
    (hprim : (E.IsBaseType st.p.elemType || E.IsEnum st.p.elemType) = false)
    (hx : x ≠ Value.nil) (hc : E.CoerceData st.p.elemType x = (c, true))
    (hcap : assertCap E.asEqualsOther c = some eq) :
    tVector.indexOf E st x = searchLoop st (fun v => some (eq v)) st.p.l.len 0 := by
  obtain ⟨a, ha, _⟩ := assertCap_some_dyn hcap
  have hcn : c.isNil = false := by rw [ha]; rfl
  simp only [tVector.indexOf, isNil_false_of_ne hx, hc, hcn, hprim, hcap]
  simp

/-- Past the primitive-or-enum test and the generic interface, `indexOf` is
its `switch` (lines 162-216). -/
theorem indexOf_switch (E : Env α) (st : State α) (x c : Value α)
    (hprim : (E.IsBaseType st.p.elemType || E.IsEnum st.p.elemType) = false)
    (hx : x ≠ Value.nil) (hc : E.CoerceData st.p.elemType x = (c, true))
    (hcn : c.isNil = false)
    (hgen : assertCap E.asEqualsOther c = none) :
    tVector.indexOf E st x =
      if st.p.elemType = E.MAP then
        match assertCap E.asEqualsMap c with
        | some eq => searchLoop st (kindTest E.isTMap eq) st.p.l.len 0
        | none => some (-1)
      else if st.p.elemType = E.SET then
        match assertCap E.asEqualsSet c with
        | some eq => searchLoop st (kindTest E.isTSet eq) st.p.l.len 0
        | none => some (-1)
      else if st.p.elemType = E.LIST then
        match assertCap E.asEqualsList c with
        | some eq => searchLoop st (kindTest E.isTList eq) st.p.l.len 0
        | none => some (-1)
      else if st.p.elemType = E.STRUCT then
        match assertCap E.asEqualsStruct c with
        | some eq => searchLoop st (kindTest E.isTStruct eq) st.p.l.len 0
        | none => some (-1)
      else some (-1) := by
  simp only [tVector.indexOf, isNil_false_of_ne hx, hc, hcn, hprim, hgen]
  rfl

/-- The `switch` of `indexOf` when a case is taken and the coerced value has
the interface of that case. -/
theorem indexOf_kind_eq (E : Env α) (st : State α) (x c : Value α)
    (cap : α → Option (α → Bool)) (isK : α → Bool) (eq : α → Bool)
    (hprim : (E.IsBaseType st.p.elemType || E.IsEnum st.p.elemType) = false)
    (hx : x ≠ Value.nil) (hc : E.CoerceData st.p.elemType x = (c, true))
    (hgen : assertCap E.asEqualsOther c = none)
    (hk : kindOf E st.p.elemType = some (cap, isK))
    (hcap : assertCap cap c = some eq) :
    tVector.indexOf E st x = searchLoop st (kindTest isK eq) st.p.l.len 0 := by
  obtain ⟨a, ha, _⟩ := assertCap_some_dyn hcap
  have hcn : c.isNil = false := by rw [ha]; rfl
  rw [indexOf_switch E st x c hprim hx hc hcn hgen]
  unfold kindOf at hk
  by_cases h1 : st.p.elemType = E.MAP
  · rw [if_pos h1] at hk
    cases hk
    rw [if_pos h1, hcap]
  · rw [if_neg h1] at hk
    rw [if_neg h1]
    by_cases h2 : st.p.elemType = E.SET
    · rw [if_pos h2] at hk
      cases hk
      rw [if_pos h2, hcap]
    · rw [if_neg h2] at hk
      rw [if_neg h2]
      by_cases h3 : st.p.elemType = E.LIST
      · rw [if_pos h3] at hk
        cases hk
        rw [if_pos h3, hcap]
      · rw [if_neg h3] at hk
        rw [if_neg h3]
        by_cases h4 : st.p.elemType = E.STRUCT
        · rw [if_pos h4] at hk
          cases hk
          rw [if_pos h4, hcap]
        · rw [if_neg h4] at hk
          exact Option.noConfusion hk

/-- The `switch` of `indexOf` when no case is taken, or the coerced value lacks
the interface of the case taken: the final `return -1`. -/
theorem indexOf_fallthrough (E : Env α) (st : State α) (x c : Value α)
    (hprim : (E.IsBaseType st.p.elemType || E.IsEnum st.p.elemType) = false)
    (hx : x ≠ Value.nil) (hc : E.CoerceData st.p.elemType x = (c, true))
    (hgen : assertCap E.asEqualsOther c = none)
    (hk : kindOf E st.p.elemType = none ∨
      ∃ cap isK, kindOf E st.p.elemType = some (cap, isK) ∧ assertCap cap c = none) :
    tVector.indexOf E st x = some (-1) := by
  by_cases hcn : c.isNil = true
  · simp [tVector.indexOf, isNil_false_of_ne hx, hc, hcn]
  · have hcn' : c.isNil = false := by simpa using hcn
    rw [indexOf_switch E st x c hprim hx hc hcn' hgen]
    unfold kindOf at hk
    by_cases h1 : st.p.elemType = E.MAP
    · rw [if_pos h1] at hk
      rw [if_pos h1]
      rcases hk with hk | ⟨cap, isK, hk, hcap⟩
      · exact Option.noConfusion hk
      · cases hk
        rw [hcap]
    · rw [if_neg h1] at hk
      rw [if_neg h1]
      by_cases h2 : st.p.elemType = E.SET
      · rw [if_pos h2] at hk
        rw [if_pos h2]
        rcases hk with hk | ⟨cap, isK, hk, hcap⟩
        · exact Option.noConfusion hk
        · cases hk
          rw [hcap]
      · rw [if_neg h2] at hk
        rw [if_neg h2]
        by_cases h3 : st.p.elemType = E.LIST
        · rw [if_pos h3] at hk
          rw [if_pos h3]
          rcases hk with hk | ⟨cap, isK, hk, hcap⟩
          · exact Option.noConfusion hk
          · cases hk
            rw [hcap]
        · rw [if_neg h3] at hk
          rw [if_neg h3]
          by_cases h4 : st.p.elemType = E.STRUCT
          · rw [if_pos h4] at hk
            rw [if_pos h4]
            rcases hk with hk | ⟨cap, isK, hk, hcap⟩
            · exact Option.noConfusion hk
            · cases hk
              rw [hcap]
          · rw [if_neg h4]

theorem kindTest_conforming (isK eq : α → Bool) (v : Value α)
    (hv : v = Value.nil ∨ ∃ b, v = Value.dyn b ∧ isK b = true) :
    kindTest isK eq v ≠ none := by
  rcases hv with h | ⟨b, h, hb⟩
  · rw [h]; simp [kindTest]
  · rw [h]; simp [kindTest, hb]

theorem kindTest_true (isK eq : α → Bool) (v : Value α)
    (h : kindTest isK eq v = some true) : ∃ b, v = Value.dyn b ∧ eq b = true := by
  cases v with
  | nil => simp [kindTest] at h
  | dyn b =>
    by_cases hb : isK b = true
    · simp [kindTest, hb] at h
      exact ⟨b, rfl, h⟩
    · simp [kindTest, hb] at h
  | slice s => simp [kindTest] at h

theorem kindTest_false (isK eq : α → Bool) (b : α)
    (h : kindTest isK eq (Value.dyn b) = some false) : eq b = false := by
  by_cases hb : isK b = true
  · simp [kindTest, hb] at h
    exact h
  · simp [kindTest, hb] at h

/-- C19, as the code has it, for a vector whose element type is neither
primitive nor enum and a non-nil `x` coerced by that type to `c`.
If `c` has the generic `Equals`, `indexOf(x)` is the least index whose element
that `Equals` accepts, or `-1`, whatever the declared kind.
Otherwise, if the `switch` takes the case of the declared kind and `c` has the
interface of that case, and every element is nil or a container of that
kind, `indexOf(x)` is the least index whose element is not nil and accepted
by the kind-specific `Equals`, or `-1`.
Otherwise, when no case is taken or `c` lacks the interface of the case,
`indexOf(x)` is `-1`. -/
theorem C19_indexOf_dispatch (E : Env α) (st : State α) (x c : Value α) (hwf : WF st)
    (hprim : (E.IsBaseType (tVector.ElemType st) || E.IsEnum (tVector.ElemType st)) = false)
    (hx : x ≠ Value.nil)
    (hc : E.CoerceData (tVector.ElemType st) x = (c, true)) :
    (∀ eq : Value α → Bool, assertCap E.asEqualsOther c = some eq →
      ∃ r : Int, tVector.indexOf E st x = some r ∧
        ((r = -1 ∧ ∀ (k : Int) (v : Value α), tVector.At st k = some v → eq v = false) ∨
         (0 ≤ r ∧ r < tVector.Len st ∧
           (∃ v, tVector.At st r = some v ∧ eq v = true) ∧
           ∀ (j : Int) (v : Value α), j < r → tVector.At st j = some v → eq v = false))) ∧
    (assertCap E.asEqualsOther c = none →
      ∀ (cap : α → Option (α → Bool)) (isK eq : α → Bool),
        kindOf E (tVector.ElemType st) = some (cap, isK) →
        assertCap cap c = some eq →
        (∀ (k : Int) (v : Value α), tVector.At st k = some v →
          v = Value.nil ∨ ∃ b, v = Value.dyn b ∧ isK b = true) →
        ∃ r : Int, tVector.indexOf E st x = some r ∧
          ((r = -1 ∧ ∀ (k : Int) (b : α), tVector.At st k = some (Value.dyn b) →
              eq b = false) ∨
           (0 ≤ r ∧ r < tVector.Len st ∧
             (∃ b, tVector.At st r = some (Value.dyn b) ∧ eq b = true) ∧
             ∀ (j : Int) (b : α), j < r → tVector.At st j = some (Value.dyn b) →
               eq b = false))) ∧
    (assertCap E.asEqualsOther c = none →
      (kindOf E (tVector.ElemType st) = none ∨
        ∃ cap isK, kindOf E (tVector.ElemType st) = some (cap, isK) ∧
          assertCap cap c = none) →
      tVector.indexOf E st x = some (-1)) := by
  unfold tVector.ElemType at hprim hc ⊢
  refine ⟨?_, ?_, fun hgen hk => indexOf_fallthrough E st x c hprim hx hc hgen hk⟩
  · intro eq hcap
    rw [indexOf_generic_eq E st x c eq hprim hx hc hcap]
    obtain ⟨r, hr, hcase, _⟩ := searchLoop_At hwf (fun v => some (eq v)) (fun _ _ _ => by simp)
    refine ⟨r, hr, ?_⟩
    rcases hcase with ⟨hm, hall⟩ | ⟨h0, h1, ⟨v, hv, hvt⟩, hbefore⟩
    · exact Or.inl ⟨hm, fun k v hv => by simpa using hall k v hv⟩
    · exact Or.inr ⟨h0, h1, ⟨v, hv, by simpa using hvt⟩,
        fun j w hj hw => by simpa using hbefore j w hj hw⟩
  · intro hgen cap isK eq hk hcap hconf
    rw [indexOf_kind_eq E st x c cap isK eq hprim hx hc hgen hk hcap]
    obtain ⟨r, hr, hcase, _⟩ := searchLoop_At hwf (kindTest isK eq)
      (fun k v hv => kindTest_conforming isK eq v (hconf k v hv))
    refine ⟨r, hr, ?_⟩
    rcases hcase with ⟨hm, hall⟩ | ⟨h0, h1, ⟨v, hv, hvt⟩, hbefore⟩
    · exact Or.inl ⟨hm, fun k b hv => kindTest_false isK eq b (hall k _ hv)⟩
    · obtain ⟨b, hb, hbt⟩ := kindTest_true isK eq v hvt
      rw [hb] at hv
      exact Or.inr ⟨h0, h1, ⟨b, hv, hbt⟩,
        fun j b' hj hw => kindTest_false isK eq b' (hbefore j _ hj hw)⟩

theorem kindVec_conforming (k : Int) (v : Value Item)
    (hv : tVector.At kindVec k = some v) :
    v = Value.nil ∨ ∃ b, v = Value.dyn b ∧ kindEnv.isTMap b = true := by
  have hm : v ∈ elems kindVec := List.getElem?_mem (At_some_elems k v hv).2.2
  have he : elems kindVec = [mv 1, Value.nil, mv 2] := by decide
  rw [he] at hm
  simp only [List.mem_cons, List.mem_singleton, List.not_mem_nil, or_false] at hm
  rcases hm with h | h | h
  · exact Or.inr ⟨Item.tmap 1, h, rfl⟩
  · exact Or.inl h
  · exact Or.inr ⟨Item.tmap 2, h, rfl⟩

/-- Witness of C19: on `[map 1, nil, map 2]` of kind `MAP`, the search for
`map 2` skips the nil element and returns 2. -/
theorem C19_indexOf_dispatch_witness :
    ((NewTVector ([] : Heap Item) 13 3).bind fun s =>
        (tVector.Set kindEnv s 0 (mv 1)).bind fun s => tVector.Set kindEnv s 2 (mv 2)) =
      some kindVec ∧
    tVector.indexOf kindEnv kindVec (mv 2) = some 2 ∧
    ∃ r : Int, tVector.indexOf kindEnv kindVec (mv 2) = some r ∧
      ((r = -1 ∧ ∀ (k : Int) (b : Item), tVector.At kindVec k = some (Value.dyn b) →
          decide (b = Item.tmap 2) = false) ∨
       (0 ≤ r ∧ r < tVector.Len kindVec ∧
         (∃ b, tVector.At kindVec r = some (Value.dyn b) ∧ decide (b = Item.tmap 2) = true) ∧
         ∀ (j : Int) (b : Item), j < r → tVector.At kindVec j = some (Value.dyn b) →
           decide (b = Item.tmap 2) = false)) :=
  ⟨by decide, by decide,
   (C19_indexOf_dispatch kindEnv kindVec (mv 2) (mv 2) (by decide) (by decide) (by decide)
      (by decide)).2.1 rfl kindEnv.asEqualsMap kindEnv.isTMap
      (fun b => decide (b = Item.tmap 2)) rfl rfl kindVec_conforming⟩

/-- C19 as stated fails on a vector of kind `MAP` that holds a value that is
not a map: `Insert(0, "x")` on `NewTVector(MAP, 0)` stores the string without
coercion, and the search for a map, which has the map-specific `Equals` and
not the generic one, then panics on the type assertion of that element
instead of returning an index or `-1`. -/
theorem C19_counterexample :
    (kindEnv.IsBaseType 13 || kindEnv.IsEnum 13) = false ∧
    kindEnv.CoerceData 13 (mv 1) = (mv 1, true) ∧
    (assertCap kindEnv.asEqualsOther (mv 1)).isSome = false ∧
    (kindOf kindEnv 13).isSome = true ∧
    (assertCap kindEnv.asEqualsMap (mv 1)).isSome = true ∧
    ((NewTVector ([] : Heap Item) 13 0).bind
        (fun s => tVector.Insert kindEnv s 0 (Value.dyn (Item.text "x")))).map
        (fun s => (tVector.ElemType s, tVector.At s 0, tVector.indexOf kindEnv s (mv 1))) =
      some (13, some (Value.dyn (Item.text "x")), none) := by
  decide

/-- Every run of `indexOf` is the early or final `return -1`, or one of its
four search loops. -/
theorem indexOf_cases (E : Env α) (st : State α) (x : Value α) :
    tVector.indexOf E st x = some (-1) ∨
    ∃ test : Value α → Option Bool,
      tVector.indexOf E st x = searchLoop st test st.p.l.len 0 ∧
      (test = (fun v => some v.isNil) ∨
       test = (fun v => goEq E (E.CoerceData st.p.elemType x).1 v) ∨
       (∃ eq : Value α → Bool, test = fun v => some (eq v)) ∨
       ∃ (cap : α → Option (α → Bool)) (isK eq : α → Bool),
         kindOf E st.p.elemType = some (cap, isK) ∧ test = kindTest isK eq) := by
  by_cases hx : x = Value.nil
  · right
    refine ⟨_, ?_, Or.inl rfl⟩
    subst hx
    simp [tVector.indexOf, Value.isNil]
  · rcases hr : E.CoerceData st.p.elemType x with ⟨c, ok⟩
    cases ok with
    | false =>
      left
      simp [tVector.indexOf, isNil_false_of_ne hx, hr]
    | true =>
      by_cases hcn : c = Value.nil
      · left
        subst hcn
        simp [tVector.indexOf, isNil_false_of_ne hx, hr, Value.isNil]
      · by_cases hprim : (E.IsBaseType st.p.elemType || E.IsEnum st.p.elemType) = true
        · right
          exact ⟨_, indexOf_primitive_eq E st x c hprim hx hr hcn, Or.inr (Or.inl rfl)⟩
        · have hprim' : (E.IsBaseType st.p.elemType || E.IsEnum st.p.elemType) = false := by
            simpa using hprim
          cases hgen : assertCap E.asEqualsOther c with
          | some eq =>
            right
            exact ⟨_, indexOf_generic_eq E st x c eq hprim' hx hr hgen,
              Or.inr (Or.inr (Or.inl ⟨eq, rfl⟩))⟩
          | none =>
            cases hk : kindOf E st.p.elemType with
            | none =>
              left
              exact indexOf_fallthrough E st x c hprim' hx hr hgen (Or.inl hk)
            | some pr =>
              obtain ⟨cap, isK⟩ := pr
              cases hcap : assertCap cap c with
              | none =>
                left
                exact indexOf_fallthrough E st x c hprim' hx hr hgen
                  (Or.inr ⟨cap, isK, hk, hcap⟩)
              | some eq =>
                right
                exact ⟨_, indexOf_kind_eq E st x c cap isK eq hprim' hx hr hgen hk hcap,
                  Or.inr (Or.inr (Or.inr ⟨cap, isK, eq, rfl, rfl⟩))⟩

/-- C20, as the code has it. Whenever `indexOf` returns, the result is `-1` or
an index `r` with `0 ≤ r < Len()`. It does return when no element makes a
test panic: `==` of the coerced value with each element is defined, and each
element is nil or a container of the kind the `switch` selects. On an empty
vector it returns `-1` and `Contains` is false. `Contains(x)` is true exactly
when `indexOf(x)` returns a valid index. -/
theorem C20_indexOf_range (E : Env α) (st : State α) (x : Value α) (hwf : WF st) :
    (∀ r : Int, tVector.indexOf E st x = some r →
      r = -1 ∨ (0 ≤ r ∧ r < tVector.Len st)) ∧
    ((∀ (k : Int) (v : Value α), tVector.At st k = some v →
        goEq E (E.CoerceData (tVector.ElemType st) x).1 v ≠ none ∧
        ∀ (cap : α → Option (α → Bool)) (isK : α → Bool),
          kindOf E (tVector.ElemType st) = some (cap, isK) →
          v = Value.nil ∨ ∃ b, v = Value.dyn b ∧ isK b = true) →
      ∃ r : Int, tVector.indexOf E st x = some r) ∧
    (tVector.Len st = 0 →
      tVector.indexOf E st x = some (-1) ∧ tVector.Contains E st x = some false) ∧
    (tVector.Contains E st x = some true ↔
      ∃ r : Int, tVector.indexOf E st x = some r ∧ 0 ≤ r ∧ r < tVector.Len st) := by
  have hrange : ∀ r : Int, tVector.indexOf E st x = some r →
      r = -1 ∨ (0 ≤ r ∧ r < tVector.Len st) := by
    intro r hr
    rcases indexOf_cases E st x with h | ⟨test, h, _⟩
    · rw [h] at hr
      cases hr
      exact Or.inl rfl
    · rw [h] at hr
      rcases searchLoop_range st test st.p.l.len 0 r hr with h1 | h1
      · exact Or.inl h1
      · right
        simp only [tVector.Len]
        push_cast at h1
        omega
  refine ⟨hrange, ?_, ?_, ?_⟩
  · intro hsafe
    unfold tVector.ElemType at hsafe
    rcases indexOf_cases E st x with h | ⟨test, h, htest⟩
    · exact ⟨-1, h⟩
    · rw [h]
      have htot : ∀ (k : Int) (v : Value α), tVector.At st k = some v → test v ≠ none := by
        intro k v hv
        rcases htest with ht | ht | ⟨eq, ht⟩ | ⟨cap, isK, eq, hk, ht⟩
        · rw [ht]; simp
        · rw [ht]; exact (hsafe k v hv).1
        · rw [ht]; simp
        · rw [ht]; exact kindTest_conforming isK eq v ((hsafe k v hv).2 cap isK hk)
      obtain ⟨r, hr, _⟩ := searchLoop_At hwf test htot
      exact ⟨r, hr⟩
  · intro h0
    have hlen : st.p.l.len = 0 := by simp [tVector.Len] at h0; exact h0
    have hidx : tVector.indexOf E st x = some (-1) := by
      rcases indexOf_cases E st x with h | ⟨test, h, _⟩
      · exact h
      · rw [h, hlen]
        rfl
    exact ⟨hidx, by simp [tVector.Contains, hidx]⟩
  · constructor
    · intro hcon
      unfold tVector.Contains at hcon
      obtain ⟨r, hr, hd⟩ := Option.map_eq_some'.mp hcon
      have h0 : 0 ≤ r := of_decide_eq_true hd
      rcases hrange r hr with h1 | h1
      · omega
      · exact ⟨r, hr, h0, h1.2⟩
    · rintro ⟨r, hr, h0, _⟩
      simp [tVector.Contains, hr, h0]

/-- Witness of C20: the search for `map 2` in `[map 1, nil, map 2]`. -/
theorem C20_indexOf_range_witness :
    tVector.indexOf kindEnv kindVec (mv 2) = some 2 ∧
    (tVector.Contains kindEnv kindVec (mv 2) = some true ↔
      ∃ r : Int, tVector.indexOf kindEnv kindVec (mv 2) = some r ∧
        0 ≤ r ∧ r < tVector.Len kindVec) :=
  ⟨by decide, (C20_indexOf_range kindEnv kindVec (mv 2) (by decide)).2.2.2⟩

/-- C20 as stated fails where a test panics: `Insert(1, "y")` on
`NewTVector(MAP, 2)` leaves `[nil, "y", <slice>]` under the kind `MAP`, and
the search for a map skips the nil and panics on the type assertion of the
string, so `indexOf` and `Contains` return nothing. -/
theorem C20_counterexample :
    ((NewTVector ([] : Heap Item) 13 2).bind
        (fun s => tVector.Insert kindEnv s 1 (Value.dyn (Item.text "y")))).map
        (fun s => (tVector.Len s, tVector.At s 0, tVector.At s 1)) =
      some (3, some Value.nil, some (Value.dyn (Item.text "y"))) ∧
    ((NewTVector ([] : Heap Item) 13 2).bind
        (fun s => tVector.Insert kindEnv s 1 (Value.dyn (Item.text "y")))).map
        (fun s => (tVector.indexOf kindEnv s (mv 1), tVector.Contains kindEnv s (mv 1))) =
      some (none, none) := by
  decide

/-! ## Contains after Push and Set -/

/-- A search loop whose test panics on no element and accepts a stored value
finds an index, so `Contains` is true. -/
theorem contains_of_accepting_test (E : Env α) {st : State α} (x c : Value α)
    (test : Value α → Option Bool) (hwf : WF st)
    (hidx : tVector.indexOf E st x = searchLoop st test st.p.l.len 0)
    (htot : ∀ v ∈ elems st, test v ≠ none)
    (hacc : test c = some true) (hmem : c ∈ elems st) :
    tVector.Contains E st x = some true := by
  obtain ⟨k, hk, hkc⟩ := List.getElem_of_mem hmem
  have hget : (elems st)[k]? = some c := by rw [List.getElem?_eq_getElem hk, hkc]
  have hAt := (elems_some_At hwf k c hget).1
  have htot' : ∀ (j : Int) (v : Value α), tVector.At st j = some v → test v ≠ none := by
    intro j v hv
    exact htot v (List.getElem?_mem (At_some_elems j v hv).2.2)
  obtain ⟨r, hr, _, hiff⟩ := searchLoop_At hwf test htot'
  have hpos : decide (0 ≤ r) = true := hiff.mpr ⟨(k : Int), c, hAt, hacc⟩
  simp only [tVector.Contains, hidx, hr, Option.map_some', hpos]

/-- After `Push(x)` or `Set(i, x)` has stored the coerced value `c`, a search
whose test accepts `c` and panics on no element of the vector finds it. -/
theorem contains_after_store (E : Env α) {st : State α} (x c : Value α)
    (test : Value α → Option Bool) (hwf : WF st)
    (hc : E.CoerceData (fixType E st.p.elemType x) x = (c, true))
    (hidx : ∀ st1 : State α, st1.p.elemType = fixType E st.p.elemType x →
      tVector.indexOf E st1 x = searchLoop st1 test st1.p.l.len 0)
    (hacc : test c = some true)
    (htot : ∀ (k : Int) (v : Value α), tVector.At st k = some v → test v ≠ none) :
    ContainsAfterStore E st x := by
  have hold : ∀ v ∈ elems st, test v ≠ none := by
    intro v hv
    obtain ⟨k, hk, hkv⟩ := List.getElem_of_mem hv
    have hget : (elems st)[k]? = some v := by rw [List.getElem?_eq_getElem hk, hkv]
    exact htot (k : Int) v (elems_some_At hwf k v hget).1
  have hcc : test c ≠ none := by rw [hacc]; exact Option.noConfusion
  constructor
  · obtain ⟨w1, w2, _, w4⟩ := Push_ok E x c hwf hc
    refine contains_of_accepting_test E x c test w1 (hidx _ w4) ?_ hacc (by rw [w2]; simp)
    intro v hv
    rw [w2] at hv
    rcases List.mem_append.mp hv with h | h
    · exact hold v h
    · have : v = c := by simpa using h
      rw [this]; exact hcc
  · intro i h0 h1
    obtain ⟨st', hs, w1, w2, _, w4⟩ := Set_ok E i x c hwf h0 h1 hc
    have hlen : i.toNat < (elems st).length := by
      have hl : (elems st).length = st.p.l.len := sliceElems_length hwf
      simp [tVector.Len] at h1
      omega
    refine ⟨st', hs, contains_of_accepting_test E x c test w1 (hidx _ w4) ?_ hacc
      (by rw [w2]; exact List.mem_set _ _ hlen c)⟩
    intro v hv
    rw [w2] at hv
    rcases List.mem_or_eq_of_mem_set hv with h | h
    · exact hold v h
    · rw [h]; exact hcc

/-- C8, as the code has it. Let `c` be the coerced value of `x` under the
element type in force once `Push` or `Set` has fixed an unset type. Then
`Contains(x)` is true right after `Push(x)`, and right after `Set(i, x)` at a
valid index, in each of these cases, one per branch of the search:
`x` and `c` are both nil;
the type is primitive or enum, `x` and `c` are not nil, `c` is `==` to itself
and can be compared with the elements without a panic;
the type is neither, `x` is not nil, and `c` has the generic `Equals`, which
accepts `c`;
the type is neither, `x` is not nil, `c` has no generic `Equals`, the `switch`
takes the case of the declared kind, `c` is a container of that kind with the
interface of that case, whose `Equals` accepts `c`, and every element is nil
or a container of that kind. -/
theorem C8_contains_after_insertion (E : Env α) (st : State α) (x c : Value α)
    (hwf : WF st)
    (hc : E.CoerceData (fixType E (tVector.ElemType st) x) x = (c, true)) :
    (x = Value.nil → c = Value.nil → ContainsAfterStore E st x) ∧
    ((E.IsBaseType (fixType E (tVector.ElemType st) x) ||
        E.IsEnum (fixType E (tVector.ElemType st) x)) = true →
      x ≠ Value.nil → c ≠ Value.nil →
      (∀ (k : Int) (v : Value α), tVector.At st k = some v → goEq E c v ≠ none) →
      goEq E c c = some true →
      ContainsAfterStore E st x) ∧
    ((E.IsBaseType (fixType E (tVector.ElemType st) x) ||
        E.IsEnum (fixType E (tVector.ElemType st) x)) = false →
      x ≠ Value.nil →
      ∀ eq : Value α → Bool, assertCap E.asEqualsOther c = some eq → eq c = true →
      ContainsAfterStore E st x) ∧
    ((E.IsBaseType (fixType E (tVector.ElemType st) x) ||
        E.IsEnum (fixType E (tVector.ElemType st) x)) = false →
      x ≠ Value.nil → assertCap E.asEqualsOther c = none →
      ∀ (cap : α → Option (α → Bool)) (isK eq : α → Bool) (a : α),
        kindOf E (fixType E (tVector.ElemType st) x) = some (cap, isK) →
        assertCap cap c = some eq → c = Value.dyn a → isK a = true → eq a = true →
        (∀ (k : Int) (v : Value α), tVector.At st k = some v →
          v = Value.nil ∨ ∃ b, v = Value.dyn b ∧ isK b = true) →
        ContainsAfterStore E st x) := by
  unfold tVector.ElemType at hc ⊢
  refine ⟨?_, ?_, ?_, ?_⟩
  · intro hx hcn
    subst hx
    subst hcn
    refine contains_after_store E Value.nil Value.nil (fun v => some v.isNil) hwf hc ?_ rfl
      (fun _ _ _ => by simp)
    intro st1 _
    simp [tVector.indexOf, Value.isNil]
  · intro hprim hx hcn hcmp hrefl
    refine contains_after_store E x c (fun v => goEq E c v) hwf hc ?_ hrefl hcmp
    intro st1 h1
    exact indexOf_primitive_eq E st1 x c (by rw [h1]; exact hprim) hx (by rw [h1]; exact hc) hcn
  · intro hprim hx eq hcap hacc
    refine contains_after_store E x c (fun v => some (eq v)) hwf hc ?_
      (congrArg some hacc) (fun _ _ _ => by simp)
    intro st1 h1
    exact indexOf_generic_eq E st1 x c eq (by rw [h1]; exact hprim) hx
      (by rw [h1]; exact hc) hcap
  · intro hprim hx hgen cap isK eq a hk hcap hca hka hacc hconf
    refine contains_after_store E x c (kindTest isK eq) hwf hc ?_ ?_
      (fun k v hv => kindTest_conforming isK eq v (hconf k v hv))
    · intro st1 h1
      exact indexOf_kind_eq E st1 x c cap isK eq (by rw [h1]; exact hprim) hx
        (by rw [h1]; exact hc) hgen (by rw [h1]; exact hk) hcap
    · rw [hca]
      simp [kindTest, hka, hacc]

/-- Witness of C8. Primitive branch: `Push("b")` and `Set(0, "b")` on `["a"]`.
Generic branch: `Push` of a value with the generic `Equals` on a vector of
such values. Kind-specific branch: `Push(map 3)` and `Set(1, map 3)` on
`[map 1, nil, map 2]`. -/
theorem C8_contains_after_insertion_witness :
    ContainsAfterStore sampleEnv (sampleVec [sv "a"]) (sv "b") ∧
    ContainsAfterStore kindEnv
      (pushAll kindEnv (NewTVectorDefault kindEnv []) [Value.dyn (Item.gen 1)])
      (Value.dyn (Item.gen 2)) ∧
    ContainsAfterStore kindEnv kindVec (mv 3) ∧
    tVector.Contains kindEnv (tVector.Push kindEnv kindVec (mv 3)) (mv 3) = some true :=
  ⟨(C8_contains_after_insertion sampleEnv (sampleVec [sv "a"]) (sv "b") (sv "b")
      (by decide) (by decide)).2.1 (by decide) (by decide) (by decide)
      (fun k v _ => by
        cases v with
        | nil => decide
        | dyn a => simp [goEq, sv, sampleEnv]
        | slice s => simp [goEq, sv])
      (by decide),
   (C8_contains_after_insertion kindEnv
      (pushAll kindEnv (NewTVectorDefault kindEnv []) [Value.dyn (Item.gen 1)])
      (Value.dyn (Item.gen 2)) (Value.dyn (Item.gen 2)) (by decide) (by decide)).2.2.1
      (by decide) (by decide) (fun v => decide (v = Value.dyn (Item.gen 2))) rfl (by decide),
   (C8_contains_after_insertion kindEnv kindVec (mv 3) (mv 3) (by decide) (by decide)).2.2.2
      (by decide) (by decide) rfl kindEnv.asEqualsMap kindEnv.isTMap
      (fun b => decide (b = Item.tmap 3)) (Item.tmap 3) rfl rfl rfl rfl (by decide)
      kindVec_conforming,
   by decide⟩

/-- C8 as stated fails. `Push(nil)` on the string vector `["a"]` succeeds and
stores the coerced value `""`, and `Set(0, nil)` likewise, yet `Contains(nil)`
looks for a nil element and is false. `Push` of a record without any equality
capability on a fresh vector succeeds, yet `Contains` of it falls through the
dispatch and is false. On a vector of kind `MAP` that holds a string (stored
by `Insert`, which does not coerce), `Push` of a map succeeds, yet `Contains`
of it panics on the type assertion of the string. -/
theorem C8_counterexample :
    (sampleEnv.CoerceData
        (fixType sampleEnv (tVector.ElemType (sampleVec [sv "a"])) Value.nil) Value.nil).2 = true ∧
    elems (tVector.Push sampleEnv (sampleVec [sv "a"]) Value.nil) = [sv "a", sv ""] ∧
    tVector.Contains sampleEnv (tVector.Push sampleEnv (sampleVec [sv "a"]) Value.nil) Value.nil =
      some false ∧
    (tVector.Set sampleEnv (sampleVec [sv "a"]) 0 Value.nil).map
        (fun s => (elems s, tVector.Contains sampleEnv s Value.nil)) =
      some ([sv ""], some false) ∧
    (sampleEnv.CoerceData
        (fixType sampleEnv (tVector.ElemType (sampleVec [])) (Value.dyn (Atom.obj 1)))
        (Value.dyn (Atom.obj 1))).2 = true ∧
    elems (tVector.Push sampleEnv (sampleVec []) (Value.dyn (Atom.obj 1))) =
      [Value.dyn (Atom.obj 1)] ∧
    tVector.Contains sampleEnv (tVector.Push sampleEnv (sampleVec []) (Value.dyn (Atom.obj 1)))
      (Value.dyn (Atom.obj 1)) = some false ∧
    ((NewTVector ([] : Heap Item) 13 0).bind
        (fun s => tVector.Insert kindEnv s 0 (Value.dyn (Item.text "z")))).map
        (fun s => (tVector.At (tVector.Push kindEnv s (mv 1)) 2,
          tVector.Contains kindEnv (tVector.Push kindEnv s (mv 1)) (mv 1))) =
      some (some (mv 1), none) := by
  decide

end Thrift
